import Mathlib

/-!
Verification of the pcfg_cracker core against its natural-language specification.

The development shallowly embeds the Python sources:
  * `pcfg_manager/core_grammar.py`   (class `PcfgClass`)
  * `pcfg_manager/priority_queue.py` (classes `QueueItem`, `PcfgQueue`)
  * `lib_scorer/pcfg_grammar.py`     (class `PcfgGrammar`)

Python floats are modelled as exact rationals (`ℚ`): the code only multiplies
and compares probabilities, and all claims are about order/equality of those
values.  Python lists of the parse-tree shape `[g, r, [child, ...]]` are
modelled by the inductive type `PT`.  Fallible Python code (out-of-range
indexing raising `IndexError`) is modelled with `Option`.
-/

/-- One replacement dictionary of the grammar
(`core_grammar.py`, class comment lines 31-60): fields `is_terminal`,
`prob`, `function`, `values`, `pos`. -/
structure Replacement where
  is_terminal : Bool
  prob : ℚ
  function : String
  values : List String
  pos : List Nat
  deriving DecidableEq

/-- One non-terminal of the grammar: a `name`, a `type` tag (the start symbol
has type `"START"`), and its list of replacements. -/
structure NonTerminal where
  name : String
  type : String
  replacements : List Replacement
  deriving DecidableEq

/-- The grammar is an ordered sequence of non-terminals
(`PcfgClass.grammar`). -/
abbrev Grammar := List NonTerminal

/-- A parse tree node `[index_in_grammar, index_in_node, [children]]`
(`core_grammar.py` comment at `copy_node`, lines 199-204). -/
inductive PT where
  | mk (g : Nat) (r : Nat) (children : List PT)

namespace PT

def g : PT → Nat
  | .mk g _ _ => g

def r : PT → Nat
  | .mk _ r _ => r

def children : PT → List PT
  | .mk _ _ cs => cs

mutual
/-- Structural (deep) equality of parse trees, mirroring Python's `==` on
nested lists. -/
def beq : PT → PT → Bool
  | .mk g1 r1 c1, .mk g2 r2 c2 => g1 == g2 && r1 == r2 && beqList c1 c2

/-- Deep equality on lists of parse trees. -/
def beqList : List PT → List PT → Bool
  | [], [] => true
  | [], _ :: _ => false
  | _ :: _, [] => false
  | x :: xs, y :: ys => beq x y && beqList xs ys
end
end PT

theorem PT.beq_iff : ∀ a b : PT, PT.beq a b = true ↔ a = b :=
  fun a => PT.rec
    (motive_1 := fun a => ∀ b, PT.beq a b = true ↔ a = b)
    (motive_2 := fun l => ∀ m, PT.beqList l m = true ↔ l = m)
    (fun g r cs ih b => by
      cases b with
      | mk g' r' cs' =>
        simp only [PT.beq, Bool.and_eq_true, beq_iff_eq]
        constructor
        · rintro ⟨⟨rfl, rfl⟩, h⟩
          simp [(ih cs').1 h]
        · rintro h
          injection h with h1 h2 h3
          subst h1; subst h2; subst h3
          exact ⟨⟨rfl, rfl⟩, (ih cs).2 rfl⟩)
    (fun m => by
      cases m <;> simp [PT.beqList])
    (fun x xs ihx ihxs m => by
      cases m with
      | nil => simp [PT.beqList]
      | cons y ys =>
        simp only [PT.beqList, Bool.and_eq_true]
        constructor
        · rintro ⟨h1, h2⟩
          rw [(ihx y).1 h1, (ihxs ys).1 h2]
        · rintro h
          injection h with h1 h2
          exact ⟨(ihx y).2 h1, (ihxs ys).2 h2⟩)
    a

instance : DecidableEq PT := fun a b =>
  decidable_of_iff (PT.beq a b = true) (PT.beq_iff a b)

/-- Placeholder non-terminal: Python raises `IndexError`/`KeyError` on an
out-of-range grammar access; total lookups return this dummy instead.  All
claims are instantiated at grammars/trees where lookups are in range. -/
def dummyNT : NonTerminal := ⟨"", "", []⟩

/-- Placeholder replacement for out-of-range replacement indices
(see `dummyNT`). -/
def dummyRepl : Replacement := ⟨true, 1, "", [], []⟩

/-- `self.grammar[g]`. -/
def getNT (G : Grammar) (g : Nat) : NonTerminal := G.getD g dummyNT

/-- `self.grammar[g]['replacements'][r]`. -/
def getRepl (G : Grammar) (g r : Nat) : Replacement :=
  (getNT G g).replacements.getD r dummyRepl

/-- `PcfgClass.start_index` (`core_grammar.py` lines 78-93), including its
bug: the fallback loop tests `self.grammar[-1]['type']` (the *last*
non-terminal) instead of `self.grammar[index]['type']`, so its body never
fires when the shortcut failed. -/
def start_index (G : Grammar) : Int :=
  if G.length = 0 then -1
  else if (getNT G (G.length - 1)).type = "START" then (G.length : Int) - 1
  else
    match (List.range G.length).find?
        (fun _ => (getNT G (G.length - 1)).type == "START") with
    | some i => (i : Int)
    | none => -1

mutual
/-- `PcfgClass.find_probability` (lines 175-182): probability of a parse tree
is the replacement probability at the root times the product over the
children (the `for x in range(0, len(pt[2]))` loop). -/
def find_probability (G : Grammar) : PT → ℚ
  | .mk g r cs => (getRepl G g r).prob * find_probList G cs

/-- The product over a node's children. -/
def find_probList (G : Grammar) : List PT → ℚ
  | [] => 1
  | c :: cs => find_probability G c * find_probList G cs
end

mutual
/-- `PcfgClass.find_is_terminal` (lines 188-196): an unexpanded node is
terminal iff its replacement is; an expanded node is terminal iff all its
children are. -/
def find_is_terminal (G : Grammar) : PT → Bool
  | .mk g r cs =>
    if cs.isEmpty then (getRepl G g r).is_terminal
    else find_is_terminalList G cs

/-- The `for x in range(0, len(pt[2]))` loop of `find_is_terminal`. -/
def find_is_terminalList (G : Grammar) : List PT → Bool
  | [] => true
  | c :: cs => find_is_terminal G c && find_is_terminalList G cs
end

mutual
/-- `PcfgClass.find_children` (lines 232-266): on an unexpanded node, the
increment child (if another replacement exists) followed by the expansion
child (if the non-terminal's replacement 0 is not terminal); on an expanded
node, recursion into each child position in order.  `pre ++ y :: rest` is the
children list with the current position replaced by `y` (the Python code
copies the tree and assigns `ret_list[-1][2][x] = y`). -/
def find_children (G : Grammar) : PT → List PT
  | .mk g r [] =>
    (if (getNT G g).replacements.length > r + 1 then [PT.mk g (r + 1) []] else []) ++
    (if (getRepl G g 0).is_terminal = false then
      [PT.mk g r ((getRepl G g r).pos.map (fun x => PT.mk x 0 []))] else [])
  | .mk g r (c :: cs) => find_children_kids G g r [] (c :: cs)

/-- Children obtained by recursing into the child at each position of
`rest`, `pre` being the positions already passed (loop over `x` in
`find_children`). -/
def find_children_kids (G : Grammar) (g r : Nat) : List PT → List PT → List PT
  | _, [] => []
  | pre, c :: rest =>
    (find_children G c).map (fun y => PT.mk g r (pre ++ y :: rest)) ++
    find_children_kids G g r (pre ++ [c]) rest
end

mutual
/-- `PcfgClass.findMyParents` (lines 271-298): on an unexpanded node the
decrement parent (if `r ≠ 0`); on an expanded node the parents obtained
through the children, or — exactly when the children yield none — the
collapsed (unexpanded) version of the node. -/
def findMyParents : PT → List PT
  | .mk g r [] => if r ≠ 0 then [PT.mk g (r - 1) []] else []
  | .mk g r (c :: cs) =>
    let fromKids := findMyParentsKids g r [] (c :: cs)
    if fromKids.isEmpty then [PT.mk g r []] else fromKids

/-- Parents obtained by recursing into the child at each position (loop over
`x` in `findMyParents`). -/
def findMyParentsKids (g r : Nat) : List PT → List PT → List PT
  | _, [] => []
  | pre, c :: rest =>
    (findMyParents c).map (fun y => PT.mk g r (pre ++ y :: rest)) ++
    findMyParentsKids g r (pre ++ [c]) rest
end

mutual
/-- Number of nodes of a parse tree (used as a termination measure for the
worklist loop below). -/
def PT.size : PT → Nat
  | .mk _ _ cs => 1 + PT.sizeList cs

/-- Total node count of a list of parse trees. -/
def PT.sizeList : List PT → Nat
  | [] => 0
  | c :: cs => PT.size c + PT.sizeList cs
end

theorem PT.size_pos (p : PT) : 0 < p.size := by
  cases p with
  | mk g r cs => simp [PT.size]

theorem PT.sizeList_eq_sum (l : List PT) : PT.sizeList l = (l.map PT.size).sum := by
  induction l with
  | nil => simp [PT.sizeList]
  | cons c cs ih => simp [PT.sizeList, ih]

mutual
/-- The candidate-parent enumeration of `PcfgClass.dd_is_my_child`
(lines 402-440): the list of whole-tree values the function compares
against, in the order the `while cur_parse_tree` stack loop visits them.
`emb` embeds an edited copy of the node `cur_node` aliases back into the
whole child tree (the Python code edits the shared tree in place and
restores it; the state-threaded version below proves the restores exact).
At an unexpanded node with `r ≠ 0` the candidate is the decrement; at an
expanded node whose direct children all have `r = 0`
(`empty_list_parent`), the candidate is the collapse `cur_node[2] = []`.
The loop pushes children in order and pops from the end of the stack, so
whole subtrees are visited right-to-left after the node itself —
`ddCandsKids` therefore lists the candidates of the later positions first. -/
def ddCandsNode : PT → (PT → PT) → List PT
  | .mk g r [], emb => if r ≠ 0 then [emb (PT.mk g (r - 1) [])] else []
  | .mk g r (c :: cs), emb =>
    (if (c :: cs).all (fun x => x.r = 0) then [emb (PT.mk g r [])] else []) ++
    ddCandsKids g r emb [] (c :: cs)

/-- Candidates contributed by the child subtrees at positions
`pre.length, pre.length + 1, ...`, listed in the stack's pop order: the
subtrees at later positions come first. -/
def ddCandsKids (g r : Nat) (emb : PT → PT) : List PT → List PT → List PT
  | _, [] => []
  | pre, c :: rest =>
    ddCandsKids g r emb (pre ++ [c]) rest ++
    ddCandsNode c (fun y => emb (PT.mk g r (pre ++ y :: rest)))
end

/-- Candidate parents of a child tree, in `dd_is_my_child`'s visit order:
the loop starts from the stack `[child]`, i.e. the identity embedding. -/
def dd_cands (child : PT) : List PT := ddCandsNode child id

/-- The boolean verdict of `PcfgClass.dd_is_my_child`: `False` exactly when
some candidate parent of `child` has probability strictly below
`previous_parent_prob` (the source returns `False` at the first such
candidate; the set visited does not affect the verdict). -/
def dd_is_my_child (G : Grammar) (child : PT) (thr : ℚ) : Bool :=
  (dd_cands child).all (fun q => decide (¬ find_probability G q < thr))

/-- The `childs_parent` output parameter of `PcfgClass.dd_is_my_child`: the
first candidate (in visit order) whose probability equals
`previous_parent_prob` (`if not childs_parent: childs_parent.append(...)`). -/
def dd_childs_parent (G : Grammar) (child : PT) (thr : ℚ) : Option PT :=
  (dd_cands child).find? (fun q => find_probability G q == thr)

/-- `PcfgClass.deadbeat_dad` together with `find_children_dd`
(lines 320-381): each candidate edit of the parent (exactly the raw
`find_children` edits, formed in the same order) is kept iff
`dd_is_my_child` returns `True` on the speculatively edited tree and the
recorded `childs_parent[0]` equals the parent. -/
def deadbeat_dad (G : Grammar) (pt : PT) (parent_prob : ℚ) : List PT :=
  (find_children G pt).filter (fun c =>
    dd_is_my_child G c parent_prob && (dd_childs_parent G c parent_prob == some pt))

/-! ### Terminal expander (`list_terminals`, `expand_terminals`) -/

/-- A Python value occurring in `expand_terminals`' working lists: either a
string or a (nested) list. -/
inductive PyVal where
  | str (s : String)
  | list (l : List PyVal)

mutual
/-- Python `==` on the nested string/list values. -/
def PyVal.beq : PyVal → PyVal → Bool
  | .str a, .str b => a == b
  | .list a, .list b => PyVal.beqList a b
  | _, _ => false

/-- Python `==` on lists of such values. -/
def PyVal.beqList : List PyVal → List PyVal → Bool
  | [], [] => true
  | [], _ :: _ => false
  | _ :: _, [] => false
  | x :: xs, y :: ys => PyVal.beq x y && PyVal.beqList xs ys
end

theorem PyVal.beqv_iff : ∀ a b : PyVal, PyVal.beq a b = true ↔ a = b :=
  fun a => PyVal.rec
    (motive_1 := fun a => ∀ b, PyVal.beq a b = true ↔ a = b)
    (motive_2 := fun l => ∀ m, PyVal.beqList l m = true ↔ l = m)
    (fun s b => by
      cases b with
      | str t => simp [PyVal.beq]
      | list _ => simp [PyVal.beq])
    (fun l ih b => by
      cases b with
      | str t => simp [PyVal.beq]
      | list m =>
        simp only [PyVal.beq]
        constructor
        · intro h; rw [(ih m).1 h]
        · rintro h; injection h with h1; exact (ih m).2 h1)
    (fun m => by cases m <;> simp [PyVal.beqList])
    (fun x xs ihx ihxs m => by
      cases m with
      | nil => simp [PyVal.beqList]
      | cons y ys =>
        simp only [PyVal.beqList, Bool.and_eq_true]
        constructor
        · rintro ⟨h1, h2⟩; rw [(ihx y).1 h1, (ihxs ys).1 h2]
        · rintro h
          injection h with h1 h2
          exact ⟨(ihx y).2 h1, (ihxs ys).2 h2⟩)
    a

instance : DecidableEq PyVal := fun a b =>
  decidable_of_iff (PyVal.beq a b = true) (PyVal.beqv_iff a b)

/-- The inner mask loop of the `Capitalization` branch of `expand_terminals`
(lines 153-158): position by position over the word, uppercase where the mask
has `U`; `none` models the uncaught `IndexError` when the word is longer than
the mask (`rule[letterPos]` out of range). -/
def capChars : List Char → List Char → Option (List Char)
  | _, [] => some []
  | [], _ :: _ => none
  | rc :: rrest, wc :: wrest =>
    (capChars rrest wrest).map (fun t => (if rc = 'U' then wc.toUpper else wc) :: t)

/-- One mask applied to one word (`for letterPos in range(0, len(word))`). -/
def capWord (rule word : String) : Option String :=
  (capChars rule.data word.data).map (fun l => ⟨l⟩)

/-- The inner word loop of the `Capitalization` branch. -/
def capAllWords (rule : String) : List String → Option (List String)
  | [] => some []
  | w :: ws => do
    let cw ← capWord rule w
    let rest ← capAllWords rule ws
    pure (cw :: rest)

/-- The outer mask loop of the `Capitalization` branch
(`for rule in cur_dic['values']`). -/
def capCombine (values : List String) (words : List String) : Option (List String) :=
  match values with
  | [] => some []
  | rule :: rs => do
    let l1 ← capAllWords rule words
    let l2 ← capCombine rs words
    pure (l1 ++ l2)

/-- Extract the strings of a working list; a nested list in `Capitalization`
input models Python's `TypeError` on `temp_word += word[letterPos]`
(only strings reach this branch in well-formed grammars). -/
def asStrings : List PyVal → Option (List String)
  | [] => some []
  | .str s :: rest => (asStrings rest).map (s :: ·)
  | .list _ :: _ => none

/-- How `expand_terminals` was called: with an explicit `working_value`
argument (the top-level call in `list_terminals`, and the `Shadow` branch
passing `cur_dic['values']`), or with the *default argument* — in Python a
single shared list object created once at definition time, which the
`Transparent` branch then mutates in place across calls. -/
inductive WorkingArg where
  | fresh (init : List PyVal)
  | dflt

mutual
/-- `PcfgClass.expand_terminals` (lines 133-169), with the shared
default-argument list made explicit as a state `D`.  Returns
(value of `cur_combo` as returned, contents of the shared default list after
the call).  A `Transparent` node reached through the default argument has
`cur_combo` aliased to the shared list, so its appends update `D`; the model
returns a snapshot of the returned list's value, exact for executions in
which a returned alias of `D` is not mutated again before being consumed (as
in every run evaluated below).  `none` models an uncaught Python exception
(unexpanded `Shadow` child access, `Capitalization` errors, or an unknown
`function` name). -/
def expand_terminals (G : Grammar) : PT → WorkingArg → List PyVal →
    Option (List PyVal × List PyVal)
  | .mk g r cs, wv, D =>
    let rep := getRepl G g r
    if rep.function = "Copy" then
      some (rep.values.map PyVal.str, D)
    else if rep.function = "Shadow" then
      match cs with
      | [] => none
      | c0 :: _ => expand_terminals G c0 (.fresh (rep.values.map PyVal.str)) D
    else if rep.function = "Capitalization" then
      let cur := match wv with | .fresh i => i | .dflt => D
      match asStrings cur with
      | none => none
      | some words =>
        match capCombine rep.values words with
        | none => none
        | some out => some (out.map PyVal.str, D)
    else if rep.function = "Transparent" then
      match wv with
      | .fresh i => expand_transparent G cs i false D
      | .dflt => expand_transparent G cs D true D
    else none

/-- The `Transparent` loop `for rule in cur_section[2]` (lines 163-164):
each child is expanded with the *default* `working_value`, and the returned
list object is appended to `cur_combo`; when `cur_combo` is the shared
default list (`isDflt`), the append also updates `D`. -/
def expand_transparent (G : Grammar) : List PT → List PyVal → Bool → List PyVal →
    Option (List PyVal × List PyVal)
  | [], cur, _, D => some (cur, D)
  | c :: cs, cur, isDflt, D =>
    match expand_terminals G c .dflt D with
    | none => none
    | some (v, D1) =>
      if isDflt then
        let D2 := D1 ++ [PyVal.list v]
        expand_transparent G cs D2 true D2
      else
        expand_transparent G cs (cur ++ [PyVal.list v]) isDflt D1
end

/-- Python `+` on the values reaching `expand_final_string`: string/string
and list/list concatenation; mixed operands raise `TypeError` (`none`). -/
def pyAdd : PyVal → PyVal → Option PyVal
  | .str a, .str b => some (.str (a ++ b))
  | .list a, .list b => some (.list (a ++ b))
  | _, _ => none

/-- Iterating a Python value: a list yields its elements, a string yields its
characters as 1-character strings. -/
def pyIter : PyVal → List PyVal
  | .list l => l
  | .str s => s.data.map (fun c => PyVal.str ⟨[c]⟩)

/-- The double loop of `expand_final_string`
(`for frontString ...: for back_string ...`). -/
def pyCross : List PyVal → List PyVal → Option (List PyVal)
  | [], _ => some []
  | f :: fs, backs => do
    let row ← backs.mapM (fun b => pyAdd f b)
    let rest ← pyCross fs backs
    pure (row ++ rest)

/-- `PcfgClass.expand_final_string` (lines 115-125): base case returns
`guess_combos[0]` unchanged (whatever value it is); otherwise the pairwise
concatenation of the head's elements with the recursive result's elements. -/
def expand_final_string : List PyVal → Option PyVal
  | [] => none
  | [x] => some x
  | x :: y :: rest => do
    let recs ← expand_final_string (y :: rest)
    let prod ← pyCross (pyIter x) (pyIter recs)
    pure (.list prod)

/-- `PcfgClass.list_terminals` (lines 100-107), with the shared default-list
state `D` made explicit (it persists across calls in Python). -/
def list_terminals (G : Grammar) (pt : PT) (D : List PyVal) :
    Option (PyVal × List PyVal) := do
  let (combos, D1) ← expand_terminals G pt (.fresh []) D
  let res ← expand_final_string combos
  pure (res, D1)

/-! ### Multiword detector training (`lib_scorer/pcfg_grammar.py`) -/

/-- The training loop of `PcfgGrammar.create_multiword_detector`
(lines 78-90) over one length class.  The input list is
`reversed(value.most_common())`: the class's (fragment, count) pairs in
ascending count order.  `skipped`/`prevProb` are the loop state; a fragment
is trained only in the `else` branch. -/
def mwTrainLoop : Nat → ℚ → List (String × ℚ) → List String
  | _, _, [] => []
  | skipped, prevProb, (f, c) :: rest =>
    if skipped < 5 then
      if c > prevProb then mwTrainLoop (skipped + 1) c rest
      else mwTrainLoop skipped prevProb rest
    else f :: mwTrainLoop skipped prevProb rest

/-- `PcfgGrammar.create_multiword_detector` (lines 61-90): keep the length
classes with `key >= min_len` (`min_len = 4`) and run the training loop on
each; the result lists every fragment passed to
`self.multiword_detector.train`. -/
def create_multiword_detector (table : List (Nat × List (String × ℚ))) : List String :=
  (table.filter (fun kv => 4 ≤ kv.1)).flatMap (fun kv => mwTrainLoop 0 0 kv.2)

/-- Number of strictly increasing steps of an ascending count list above
`prev` — for a sorted class, the number of distinct count tiers above
`prev` (used to state what the training loop skips). -/
def newTiers : ℚ → List ℚ → Nat
  | _, [] => 0
  | prev, c :: rest => if c > prev then 1 + newTiers c rest else newTiers prev rest

/-- Length of the prefix a `mwTrainLoop` run consumes before it starts
training. -/
def skipCount : Nat → ℚ → List (String × ℚ) → Nat
  | _, _, [] => 0
  | skipped, prevProb, (_, c) :: rest =>
    if skipped < 5 then
      if c > prevProb then 1 + skipCount (skipped + 1) c rest
      else 1 + skipCount skipped prevProb rest
    else 0

/-! ### Priority queue (`priority_queue.py`) -/

/-- `QueueItem` (`priority_queue.py` lines 31-39). -/
structure QueueItem where
  is_terminal : Bool
  probability : ℚ
  parse_tree : PT
  deriving DecidableEq

/-- `heapq.heappop` under `QueueItem.__lt__` (lines 48-64), which inverts the
comparison so the *highest* probability pops first.  Among equal
probabilities the heap's choice is unspecified; the model takes the first
occurrence (the claims below depend only on the popped probabilities). -/
def popMaxQ : List QueueItem → Option (QueueItem × List QueueItem)
  | [] => none
  | x :: xs =>
    match popMaxQ xs with
    | none => some (x, [])
    | some (m, rest) =>
      if x.probability ≥ m.probability then some (x, xs) else some (m, x :: rest)

theorem popMaxQ_eq_none : ∀ q : List QueueItem, popMaxQ q = none ↔ q = [] := by
  intro q
  cases q with
  | nil => simp [popMaxQ]
  | cons x xs =>
    simp only [popMaxQ]
    cases h : popMaxQ xs with
    | none => simp
    | some p => obtain ⟨m, rest⟩ := p; dsimp only; split <;> simp

theorem popMaxQ_length :
    ∀ (q : List QueueItem) m rest, popMaxQ q = some (m, rest) →
      rest.length + 1 = q.length := by
  intro q
  induction q with
  | nil => intro m rest h; simp [popMaxQ] at h
  | cons x xs ih =>
    intro m rest h
    simp only [popMaxQ] at h
    cases hx : popMaxQ xs with
    | none =>
      rw [hx] at h
      have hnil : xs = [] := (popMaxQ_eq_none xs).1 hx
      subst hnil
      injection h with h1
      injection h1 with h2 h3
      subst h3; simp
    | some p =>
      obtain ⟨m1, rest1⟩ := p
      rw [hx] at h
      dsimp only at h
      by_cases hc : x.probability ≥ m1.probability
      · rw [if_pos hc] at h
        injection h with h1
        injection h1 with h2 h3
        subst h3; simp
      · rw [if_neg hc] at h
        injection h with h1
        injection h1 with h2 h3
        subst h3
        have := ih m1 rest1 hx
        simp only [List.length_cons]
        omega

/-- `PcfgQueue` state (`__init__`, lines 97-102): the heap, the
`max_probability` / `min_probability` bookkeeping, and the memory-management
parameters. -/
structure QState where
  p_queue : List QueueItem
  max_probability : ℚ
  min_probability : ℚ
  max_queue_size : Nat
  reduction_size : Nat
  deriving DecidableEq

/-- The first loop of `trim_queue` (lines 130-132): pop the top `k` items of
the heap in order (`none` models `heappop` of an empty heap — an uncaught
`IndexError`). -/
def popK : Nat → List QueueItem → Option (List QueueItem × List QueueItem)
  | 0, q => some ([], q)
  | k + 1, q =>
    match popMaxQ q with
    | none => none
    | some (m, rest) =>
      match popK k rest with
      | none => none
      | some (keep, rem) => some (m :: keep, rem)

/-- The tie-copy `while` loop of `trim_queue` (lines 139-142): keep popping
while the popped probability equals the boundary `b`; the first differing
item is dropped; `none` models popping an empty heap (every remaining item
tied).  `fuel` only bounds the recursion: each pop shrinks the heap, so any
`fuel ≥ q.length` gives the loop's exact behaviour (the `fuel = 0` with a
non-empty heap case is unreachable from `trim_queue`, which passes the
heap's length). -/
def popTiesF (b : ℚ) : Nat → List QueueItem → Option (List QueueItem)
  | fuel, q =>
    match popMaxQ q with
    | none => none
    | some (m, rest) =>
      if m.probability = b then
        match fuel with
        | 0 => none
        | fuel' + 1 => (popTiesF b fuel' rest).map (m :: ·)
      else some []

/-- The tie-copy loop run with enough fuel for its heap. -/
def popTies (b : ℚ) (q : List QueueItem) : Option (List QueueItem) :=
  popTiesF b q.length q

/-- `PcfgQueue.trim_queue` (lines 124-151).  Returns the kept items, the new
`min_probability`, and whether the `orig_size == len(keep_list)` sanity check
fired (`QUEUE_FULL_ERROR`); `none` models the uncaught `IndexError` when a
pop hits an empty heap.  The `copy.deepcopy` of the kept list is the
identity on values. -/
def trim_queue (s : QState) : Option (List QueueItem × ℚ × Bool) :=
  let origSize := s.p_queue.length
  let k := s.max_queue_size - s.reduction_size
  if k = 0 then
    some ([], s.min_probability, origSize = 0)
  else
    match popK k s.p_queue with
    | none => none
    | some (keep, rest) =>
      match keep.getLast? with
      | none => none
      | some last =>
        let b := last.probability
        match popTies b rest with
        | none => none
        | some ties =>
          let kept := keep ++ ties
          some (kept, b, origSize = kept.length)

/-- The argmin scan of `PcfgQueue.find_my_children` (lines 216-233),
including its bug: the loop compares every probability against
`prob_list[0][1]` because `lowest_prob` is never updated, so `parent_index`
ends at the *last* index whose probability is below the first entry's.  A
child with no parents would make Python raise on `prob_list[0]`; no
reachable child has zero parents, and the model keeps no such child. -/
def find_my_children (G : Grammar) (qpt : PT) (children : List PT) : List PT :=
  children.filter (fun child =>
    match findMyParents child with
    | [] => false
    | p0 :: rest =>
      let lowest := find_probability G p0
      let probList := (p0 :: rest).map (fun p => (p, find_probability G p))
      let pIdx := (probList.enum.drop 1).foldl
        (fun acc ip => if ip.2.2 < lowest then ip.1 else acc) 0
      decide ((probList.getD pIdx (p0, lowest)).1 = qpt))

/-- `PcfgQueue.rebuild_from_max` (lines 188-209): an item at or below
`max_probability` is pushed iff none of its parents is at or below
`max_probability` (otherwise that parent is responsible) and its probability
clears `min_probability`; an item above `max_probability` instead
contributes its `find_my_children`-filtered children to the worklist. -/
def rebuild_from_max (G : Grammar) (maxP minP : ℚ) (qi : QueueItem) :
    List QueueItem × Option QueueItem :=
  if qi.probability ≤ maxP then
    if (findMyParents qi.parse_tree).any
        (fun p => decide (find_probability G p ≤ maxP)) then ([], none)
    else if qi.probability ≥ minP then ([], some qi) else ([], none)
  else
    let mine := find_my_children G qi.parse_tree (find_children G qi.parse_tree)
    (mine.map (fun c => ⟨find_is_terminal G c, find_probability G c, c⟩), none)

/-- The `while len(rebuild_list) != 0` loop of `PcfgQueue.rebuild_queue`
(lines 170-178), iterated at most `fuel` times (each concrete run below
finishes within its fuel; `none` = fuel ran out or a trim crashed).
State: (p_queue, min_probability, FIFO worklist). -/
def rebuildLoop (G : Grammar) (maxP : ℚ) (maxSize redSize : Nat) :
    Nat → List QueueItem → ℚ → List QueueItem → Option (List QueueItem × ℚ)
  | 0, q, minP, wl => if wl.isEmpty then some (q, minP) else none
  | fuel + 1, q, minP, wl =>
    match wl with
    | [] => some (q, minP)
    | qi :: rest =>
      let step := rebuild_from_max G maxP minP qi
      let q1 := q ++ step.2.toList
      if q1.length > maxSize then
        match trim_queue ⟨q1, maxP, minP, maxSize, redSize⟩ with
        | none => none
        | some (q2, minP2, _) =>
          rebuildLoop G maxP maxSize redSize fuel q2 minP2 (rest ++ step.1)
      else rebuildLoop G maxP maxSize redSize fuel q1 minP (rest ++ step.1)

/-- `PcfgQueue.rebuild_queue` (lines 158-181): clear the queue, reset
`min_probability` to `0.0`, seed the worklist with the START item at literal
probability `1.0`, and drain the worklist.  `none`: missing START
(`GRAMMAR_ERROR`), a trim crash, or fuel exhaustion. -/
def rebuild_queue (G : Grammar) (maxP : ℚ) (maxSize redSize fuel : Nat) :
    Option (List QueueItem × ℚ) :=
  let idx := start_index G
  if idx = -1 then none
  else rebuildLoop G maxP maxSize redSize fuel [] 0
    [⟨false, 1, PT.mk idx.toNat 0 []⟩]

/-- `PcfgQueue.initialize` (lines 108-117): push the START parse tree with
its probability; `max_probability = 1.0`, `min_probability = 0.0`,
`max_queue_size = 500000`, `reduction_size = max_queue_size // 4`. -/
def initQueue (G : Grammar) : Option QState :=
  let idx := start_index G
  if idx = -1 then none
  else
    let pt := PT.mk idx.toNat 0 []
    some ⟨[⟨false, find_probability G pt, pt⟩], 1, 0, 500000, 500000 / 4⟩

/-- The child-push loop of the `PcfgQueue.deadbeat_dad` method
(lines 296-304): build a `QueueItem` for each returned child and `heappush`
it iff its probability is at most the parent item's (otherwise the source
prints a warning and drops it) and at least `min_probability`. -/
def pushChildren (G : Grammar) (qp minP : ℚ) (kids : List PT)
    (acc : List QueueItem) : List QueueItem :=
  kids.foldl (fun acc c =>
    let cn : QueueItem := ⟨find_is_terminal G c, find_probability G c, c⟩
    if cn.probability ≤ qp then
      if cn.probability ≥ minP then acc ++ [cn] else acc
    else acc) acc

/-- One iteration of the `while True` body of `PcfgQueue.next_function`
(lines 252-268): pop the top item, set `max_probability` to its probability,
push the deadbeat-dad children through `pushChildren`, then trim if the
queue exceeds `max_queue_size`.  `none`: empty queue (the outer loop then
rebuilds or reports `QUEUE_EMPTY`) or a trim crash. -/
def popStep (G : Grammar) (s : QState) : Option (QueueItem × QState) :=
  match popMaxQ s.p_queue with
  | none => none
  | some (qi, rest) =>
    let kids := deadbeat_dad G qi.parse_tree qi.probability
    let pushed := pushChildren G qi.probability s.min_probability kids rest
    let s1 : QState :=
      ⟨pushed, qi.probability, s.min_probability, s.max_queue_size, s.reduction_size⟩
    if s1.p_queue.length > s1.max_queue_size then
      match trim_queue s1 with
      | none => none
      | some (q2, minP2, _) =>
        some (qi, ⟨q2, qi.probability, minP2, s.max_queue_size, s.reduction_size⟩)
    else some (qi, s1)

/-- Iterate `popStep`, collecting the popped items in order (a run stops at
an empty queue or a trim crash). -/
def runPops (G : Grammar) : Nat → QState → List QueueItem × QState
  | 0, s => ([], s)
  | n + 1, s =>
    match popStep G s with
    | none => ([], s)
    | some (qi, s1) =>
      let l := runPops G n s1
      (qi :: l.1, l.2)

/-- The §3 grammar invariants the claims assume: every replacement
probability lies in (0, 1], and within one non-terminal the replacement
probabilities are non-increasing by index (invariant 2, what makes the
successor enumeration sound). -/
def ValidGrammar (G : Grammar) : Prop :=
  (∀ nt ∈ G, ∀ rp ∈ nt.replacements, 0 < rp.prob ∧ rp.prob ≤ 1) ∧
  (∀ nt ∈ G, List.Pairwise (fun a b : Replacement => b.prob ≤ a.prob) nt.replacements)

instance (G : Grammar) : Decidable (ValidGrammar G) :=
  inferInstanceAs (Decidable (
    (∀ nt ∈ G, ∀ rp ∈ nt.replacements, 0 < rp.prob ∧ rp.prob ≤ 1) ∧
    (∀ nt ∈ G, List.Pairwise (fun a b : Replacement => b.prob ≤ a.prob) nt.replacements)))

/-! ### State-threaded deadbeat-dad (for the no-mutation claim) -/

mutual
/-- State-threaded `PcfgClass.dd_is_my_child` (lines 402-440), following the
`while cur_parse_tree` stack loop in its visit order (node first, then the
child subtrees right-to-left; see `ddCandsNode`).  `t` is the whole child
tree the Python code edits in place; `emb` embeds an edited copy of the
node `cur_node` aliases into the whole tree.  Every speculative edit
(`cur_node[1] -= 1`, `cur_node[2] = []`) is followed by the literal undo
the source performs (`cur_node[1] += 1`, giving `r - 1 + 1`, and
`cur_node[2] = prev_replacements`); the frame theorem below proves the
returned tree equals the input.  A `False` verdict propagates immediately
(`return False` abandons the rest of the stack).
Returns (verdict, `childs_parent` head, final tree). -/
def ddmcNode (G : Grammar) (thr : ℚ) :
    PT → (PT → PT) → PT → Option PT → Bool × Option PT × PT
  | .mk g r [], emb, t, cp =>
    if r ≠ 0 then
      let t1 := emb (PT.mk g (r - 1) [])
      let p := find_probability G t1
      if p < thr then (false, cp, emb (PT.mk g (r - 1 + 1) []))
      else (true, (if p = thr && cp.isNone then some t1 else cp),
        emb (PT.mk g (r - 1 + 1) []))
    else (true, cp, t)
  | .mk g r (c :: cs), emb, t, cp =>
    let first :=
      if (c :: cs).all (fun x => x.r = 0) then
        let t1 := emb (PT.mk g r [])
        let p := find_probability G t1
        if p < thr then (false, cp, emb (PT.mk g r (c :: cs)))
        else (true, (if p = thr && cp.isNone then some t1 else cp),
          emb (PT.mk g r (c :: cs)))
      else (true, cp, t)
    if first.1 then ddmcKids G thr g r emb [] (c :: cs) first.2.2 first.2.1
    else first

/-- The child subtrees of one node, visited in the stack's pop order (later
positions first), threading the tree state and `childs_parent` and
propagating an early `False`. -/
def ddmcKids (G : Grammar) (thr : ℚ) (g r : Nat) (emb : PT → PT) :
    List PT → List PT → PT → Option PT → Bool × Option PT × PT
  | _, [], t, cp => (true, cp, t)
  | pre, c :: rest, t, cp =>
    let later := ddmcKids G thr g r emb (pre ++ [c]) rest t cp
    if later.1 then
      ddmcNode G thr c (fun y => emb (PT.mk g r (pre ++ y :: rest))) later.2.2 later.2.1
    else later
end

/-- `dd_is_my_child(child, prob, [])` as the call sites invoke it: the
worklist starts as `[child]` aliased to the whole tree (identity
embedding) and `childs_parent` starts empty. -/
def ddmc (G : Grammar) (thr : ℚ) (child : PT) : Bool × Option PT × PT :=
  ddmcNode G thr child id child none

/-- The increment branch of `PcfgClass.find_children_dd` (lines 344-355) at
an unexpanded node: speculatively set `cur_node[1] += 1` (tree
`emb (PT.mk g (r+1) [])`), run `dd_is_my_child` on the edited whole tree,
restore (`cur_node[1] -= 1`, literally `r + 1 - 1`), compare the restored
parent with `childs_parent[0]` (`none` models the `IndexError` when
`childs_parent` is empty), and append a copy of the re-edited tree on a
match.  Returns the updated `my_children_list` and the tree state. -/
def fcdd_inc (G : Grammar) (thr : ℚ) (g r : Nat) (emb : PT → PT) (t : PT)
    (acc : List PT) : Option (List PT × PT) :=
  if (getNT G g).replacements.length > r + 1 then
    let t1 := emb (PT.mk g (r + 1) [])
    let res := ddmc G thr t1
    if res.1 then
      let t2 := emb (PT.mk g (r + 1 - 1) [])
      match res.2.1 with
      | none => none
      | some cpv =>
        if t2 = cpv then
          some (acc ++ [emb (PT.mk g (r + 1) [])], emb (PT.mk g (r + 1 - 1) []))
        else some (acc, t2)
    else some (acc, emb (PT.mk g (r + 1 - 1) []))
  else some (acc, t)

/-- The expansion branch of `find_children_dd` (lines 357-372): set
`cur_node[2] = new_expansion`, run `dd_is_my_child`, restore
`cur_node[2] = []`, compare with `childs_parent[0]`, and append a copy of
the re-expanded tree on a match. -/
def fcdd_exp (G : Grammar) (thr : ℚ) (g r : Nat) (emb : PT → PT) (t4 : PT)
    (acc1 : List PT) : Option (List PT × PT) :=
  if (getRepl G g 0).is_terminal = false then
    let newExp := (getRepl G g r).pos.map (fun x => PT.mk x 0 [])
    let t5 := emb (PT.mk g r newExp)
    let res := ddmc G thr t5
    if res.1 then
      let t6 := emb (PT.mk g r [])
      match res.2.1 with
      | none => none
      | some cpv =>
        if t6 = cpv then
          some (acc1 ++ [emb (PT.mk g r newExp)], emb (PT.mk g r []))
        else some (acc1, t6)
    else some (acc1, emb (PT.mk g r []))
  else some (acc1, t4)

mutual
/-- State-threaded `PcfgClass.find_children_dd` (lines 337-381).  `n` is the
node `cur_node` aliases, `emb` embeds an edited copy of it into the whole
parent tree, `t` the current whole tree (`emb n` while no edit is pending),
`acc` the `my_children_list` accumulator.  An unexpanded node runs the
increment branch then the expansion branch; an expanded node recurses into
the children in order.  `dd_is_my_child`'s restores are proved exact by the
frame theorem for `ddmc`, so subsequent edits are expressed through `emb`. -/
def fcdd_st (G : Grammar) (thr : ℚ) :
    PT → (PT → PT) → PT → List PT → Option (List PT × PT)
  | .mk g r [], emb, t, acc =>
    match fcdd_inc G thr g r emb t acc with
    | none => none
    | some p => fcdd_exp G thr g r emb p.2 p.1
  | .mk g r (c :: cs), emb, t, acc => fcdd_kids G thr g r emb [] (c :: cs) t acc
  termination_by structural n _ _ _ => n

/-- The `for x in range(0, len(cur_node[2]))` loop of `find_children_dd`:
process each child position in order, threading the tree state and the
accumulated children; `pre ++ y :: rest` embeds an edited child back at its
position. -/
def fcdd_kids (G : Grammar) (thr : ℚ) (g r : Nat) (emb : PT → PT) :
    List PT → List PT → PT → List PT → Option (List PT × PT)
  | _, [], t, acc => some (acc, t)
  | pre, c :: rest, t, acc =>
    match fcdd_st G thr c (fun y => emb (PT.mk g r (pre ++ y :: rest))) t acc with
    | none => none
    | some p => fcdd_kids G thr g r emb (pre ++ [c]) rest p.2 p.1
  termination_by structural _ rem _ _ => rem
end

/-- State-threaded `PcfgClass.deadbeat_dad` (lines 320-328):
`find_children_dd(pt, pt, parent_prob, [])` — `cur_node` initially *is* the
parent tree.  Returns (children emitted, the parent tree after the call). -/
def deadbeat_dad_st (G : Grammar) (pt : PT) (parent_prob : ℚ) :
    Option (List PT × PT) :=
  fcdd_st G parent_prob pt id pt []

/-! ### Python's ordering on parse trees (the spec's tie-break) -/

mutual
/-- Three-way comparison of parse trees in their nested-list representation
`[g, r, children]`: by `g`, then `r`, then elementwise on the children with
a shorter strict prefix comparing smaller — Python's list comparison, the
"byte-for-byte structural comparison" the spec's tie-break refers to. -/
def ptCmp : PT → PT → Ordering
  | .mk g1 r1 c1, .mk g2 r2 c2 =>
    match compare g1 g2 with
    | .eq =>
      match compare r1 r2 with
      | .eq => ptCmpList c1 c2
      | o => o
    | o => o

/-- Three-way lexicographic comparison of two children lists. -/
def ptCmpList : List PT → List PT → Ordering
  | [], [] => .eq
  | [], _ :: _ => .lt
  | _ :: _, [] => .gt
  | x :: xs, y :: ys =>
    match ptCmp x y with
    | .eq => ptCmpList xs ys
    | o => o
end

/-- Python's `<` on parse trees. -/
def ptLex (a b : PT) : Bool := ptCmp a b == .lt

/-! ### Concrete grammars and parse trees used by the claims -/

/-- A grammar whose unique `START` non-terminal sits at index 0 (not last). -/
def G7 : Grammar :=
  [⟨"S", "START", [⟨true, 1, "Copy", ["a"], []⟩]⟩,
   ⟨"D", "Digit", [⟨true, 1, "Copy", ["1"], []⟩]⟩]

/-- `G7` with the two non-terminals swapped, so `START` is last. -/
def G7r : Grammar :=
  [⟨"D", "Digit", [⟨true, 1, "Copy", ["1"], []⟩]⟩,
   ⟨"S", "START", [⟨true, 1, "Copy", ["a"], []⟩]⟩]

/-- A probability-1 chain `START → A → B`: every §3 invariant holds, yet the
tie among candidate parents is resolved toward a spurious collapse
candidate. -/
def G2c : Grammar :=
  [⟨"START", "START", [⟨false, 1, "Transparent", [], [1]⟩]⟩,
   ⟨"A", "A", [⟨false, 1, "Transparent", [], [2]⟩]⟩,
   ⟨"B", "B", [⟨true, 1, "Copy", ["x"], []⟩]⟩]

/-- The unexpanded START node of `G2c`. -/
def rootT : PT := .mk 0 0 []

/-- START expanded one level: `[0, 0, [[1, 0, []]]]`. -/
def treeB : PT := .mk 0 0 [.mk 1 0 []]

/-- START expanded two levels: `[0, 0, [[1, 0, [[2, 0, []]]]]]` — reachable,
but emitted by no parent under the deadbeat-dad rule. -/
def cBad : PT := .mk 0 0 [.mk 1 0 [.mk 2 0 []]]

/-- Two sibling non-terminals with replacement probabilities `[2/5, 1/5]`
each, so the two parents of `c3` tie at probability `2/25`. -/
def G3 : Grammar :=
  [⟨"START", "START", [⟨false, 1, "Transparent", [], [1, 2]⟩]⟩,
   ⟨"A", "A", [⟨true, 2/5, "Copy", ["a"], []⟩, ⟨true, 1/5, "Copy", ["b"], []⟩]⟩,
   ⟨"B", "B", [⟨true, 2/5, "Copy", ["c"], []⟩, ⟨true, 1/5, "Copy", ["d"], []⟩]⟩]

/-- The child `[0, 0, [[1, 1, []], [2, 1, []]]]` with two tying parents. -/
def c3 : PT := .mk 0 0 [.mk 1 1 [], .mk 2 1 []]

/-- The lexicographically smaller parent of `c3` (decrement at position 0). -/
def pLeft : PT := .mk 0 0 [.mk 1 0 [], .mk 2 1 []]

/-- The parent of `c3` by decrement at position 1 — visited first by
`dd_is_my_child`'s stack loop. -/
def pRight : PT := .mk 0 0 [.mk 1 1 [], .mk 2 0 []]

/-- Nested `Transparent` chain `START → T2 → D1`, exercising the shared
default `working_value` list of `expand_terminals`. -/
def G8 : Grammar :=
  [⟨"START", "START", [⟨false, 1, "Transparent", [], [1]⟩]⟩,
   ⟨"T2", "T", [⟨false, 1, "Transparent", [], [2]⟩]⟩,
   ⟨"D1", "D", [⟨true, 1, "Copy", ["1"], []⟩]⟩]

/-- The fully expanded derivation of `G8`. -/
def pt8 : PT := .mk 0 0 [.mk 1 0 [.mk 2 0 []]]

/-- One `Transparent` with two `Copy` children — the spec's own
`["cat","dog"] × ["1","2"]` example. -/
def G8f : Grammar :=
  [⟨"START", "START", [⟨false, 1, "Transparent", [], [1, 2]⟩]⟩,
   ⟨"W", "W", [⟨true, 1, "Copy", ["cat", "dog"], []⟩]⟩,
   ⟨"D", "D", [⟨true, 1, "Copy", ["1", "2"], []⟩]⟩]

/-- The fully expanded derivation of `G8f`. -/
def pt8f : PT := .mk 0 0 [.mk 1 0 [], .mk 2 0 []]

/-- `Shadow ["ab"]` into a `Capitalization` with the single mask `"U"`:
the word is longer than the mask. -/
def G9 : Grammar :=
  [⟨"L1", "L", [⟨false, 1, "Shadow", ["ab"], [1]⟩]⟩,
   ⟨"Cap", "C", [⟨true, 1/2, "Capitalization", ["U"], []⟩]⟩]

/-- `Shadow ["a"]` into a `Capitalization` with the single mask `"UL"`:
the word is shorter than the mask. -/
def G9b : Grammar :=
  [⟨"L1", "L", [⟨false, 1, "Shadow", ["a"], [1]⟩]⟩,
   ⟨"Cap", "C", [⟨true, 1/2, "Capitalization", ["UL"], []⟩]⟩]

/-- The expanded Shadow→Capitalization derivation for `G9`/`G9b`. -/
def pt9 : PT := .mk 0 0 [.mk 1 0 []]

/-- `START → A` where `A` has terminal replacements at probabilities
`9/10` and `1/2` (START last because of the `start_index` bug). -/
def GA : Grammar :=
  [⟨"A", "A", [⟨true, 9/10, "Copy", ["a"], []⟩, ⟨true, 1/2, "Copy", ["b"], []⟩]⟩,
   ⟨"START", "START", [⟨false, 1, "Transparent", [], [0]⟩]⟩]

/-- `START → A` with two equal-probability terminal replacements. -/
def Gw : Grammar :=
  [⟨"A", "A", [⟨true, 1/2, "Copy", ["a"], []⟩, ⟨true, 1/2, "Copy", ["b"], []⟩]⟩,
   ⟨"START", "START", [⟨false, 1, "Transparent", [], [0]⟩]⟩]

/-- The queue state `initialize` produces for `Gw`. -/
def s0w : QState := ⟨[⟨false, 1, .mk 1 0 []⟩], 1, 0, 500000, 125000⟩

/-- A queue item of probability `1/2` (for the trim test). -/
def qHalf : QueueItem := ⟨true, 1/2, .mk 0 0 []⟩

/-- A queue item of probability `1/3`. -/
def qThird : QueueItem := ⟨true, 1/3, .mk 0 0 []⟩

/-- One multiword length class in ascending count order, with a tie on the
fifth-lowest count value. -/
def mwClass : List (String × ℚ) :=
  [("a", 1), ("b", 2), ("c", 3), ("d", 4), ("e", 5), ("f", 5)]

/-! ### Claim theorems -/

/-- C7: the claim says `start_index` returns the index of the unique START
non-terminal regardless of its position.  In fact, when the unique START
non-terminal of `G7` sits at index 0 (not last), the source's fallback loop
re-tests `self.grammar[-1]` and `start_index` returns `-1`; only a
last-position START (`G7r`) is found.  This evaluates the code at the
failing input. -/
theorem C7_start_index_bug :
    G7.countP (fun nt => nt.type == "START") = 1 ∧
    (getNT G7 0).type = "START" ∧
    start_index G7 = -1 ∧
    start_index G7r = 1 := by decide

/-- C9 counterexample: the claim says a mask × word pair is emitted only
when the lengths agree, mismatches are skipped without error, and no
out-of-bounds mask index occurs.  In fact `expand_terminals` crashes with an
`IndexError` (`none`) when the word is longer than the mask (`G9`: word
`"ab"`, mask `"U"`), and emits a string for a shorter word (`G9b`: word
`"a"`, mask `"UL"` emits `"A"`). -/
theorem C9_cex :
    expand_terminals G9 pt9 (.fresh []) [] = none ∧
    expand_terminals G9b pt9 (.fresh []) [] = some ([.str "A"], []) ∧
    capWord "U" "ab" = none ∧
    capWord "UL" "a" = some "A" := by decide

/-- C9 amended: for every mask × word pair, if the word is no longer than
the mask the expander emits the word with position `i` uppercased iff mask
position `i` is `U` (extra mask positions ignored — mismatched shorter
words are *not* skipped); if the word is strictly longer than the mask, the
positional mask lookup goes out of bounds (`IndexError`, modelled as
`none`). -/
theorem C9_amended : ∀ (rule word : List Char),
    (word.length ≤ rule.length →
      capChars rule word =
        some (List.zipWith (fun rc wc => if rc = 'U' then wc.toUpper else wc) rule word)) ∧
    (rule.length < word.length → capChars rule word = none) := by
  intro rule
  induction rule with
  | nil =>
    intro word
    cases word with
    | nil => simp [capChars]
    | cons wc wrest => simp [capChars]
  | cons rc rrest ih =>
    intro word
    cases word with
    | nil => simp [capChars]
    | cons wc wrest =>
      constructor
      · intro h
        simp only [List.length_cons, Nat.add_le_add_iff_right] at h
        simp only [capChars, List.zipWith]
        rw [(ih wrest).1 h]
        rfl
      · intro h
        simp only [List.length_cons, Nat.add_lt_add_iff_right] at h
        simp only [capChars]
        rw [(ih wrest).2 h]
        rfl

/-- Witness for C9's amended claim at a concrete mask and word. -/
theorem C9_amended_witness :
    (String.length "ab" ≤ String.length "ULL" ∧
      capChars "ULL".data "ab".data = some ['A', 'b']) ∧
    (String.length "U" < String.length "ab" ∧ capChars "U".data "ab".data = none) := by
  refine ⟨⟨by decide, ?_⟩, by decide, (C9_amended "U".data "ab".data).2 (by decide)⟩
  have h := (C9_amended "ULL".data "ab".data).1 (by decide)
  simpa using h

/-- C8: the claim says `list_terminals` yields the Cartesian concatenation
across a `Transparent` node's children (e.g. `["cat","dog"]` and
`["1","2"]` give `["cat1","cat2","dog1","dog2"]`, which the first conjunct
confirms), also for several `Transparent` nodes and repeated calls.  With
nested `Transparent` nodes (`G8`) the recursive call uses the function's
*shared default* `working_value` list: the first call returns a nested list
(not strings), the list survives into the second call, and the second call
returns two elements where the claim demands the single string `"1"` both
times.  This evaluates the code at the failing input. -/
theorem C8_default_list_bug :
    list_terminals G8f pt8f [] =
      some (.list [.str "cat1", .str "cat2", .str "dog1", .str "dog2"], []) ∧
    list_terminals G8 pt8 [] =
      some (.list [.list [.str "1"]], [.list [.str "1"]]) ∧
    list_terminals G8 pt8 [.list [.str "1"]] =
      some (.list [.list [.str "1"], .list [.str "1"]],
            [.list [.str "1"], .list [.str "1"]]) := by decide

unseal Rat.mul Rat.add Rat.sub Rat.inv in
/-- C5: the claim says `trim_queue` returns `QueueFullError` exactly when
the retained tie-band is the whole queue.  In fact, when every item beyond
the cut ties with the boundary (three items of probability `1/2`,
`max_queue_size = 2`, `reduction_size = 1` — the same shape as the shipped
defaults), the tie-copy `while` loop pops an empty heap and the run dies
with an uncaught `IndexError` (`none`); the `QUEUE_FULL_ERROR` return is
unreachable for an over-full queue.  The second conjunct evaluates a normal
trim: the top `max_queue_size - reduction_size` items plus the boundary
ties are retained and `min_probability` becomes the boundary. -/
theorem C5_trim_crash :
    trim_queue ⟨[qHalf, qHalf, qHalf], 1, 0, 2, 1⟩ = none ∧
    trim_queue ⟨[qHalf, qHalf, qThird], 1, 0, 2, 1⟩ =
      some ([qHalf, qHalf], 1/2, false) := by decide

unseal Rat.mul Rat.add Rat.sub Rat.inv in
/-- C6 counterexample: the claim says `rebuild_queue` admits only nodes with
probability *strictly below* the previous `max_probability`.  Rebuilding
`GA` with previous `max_probability = 1/2` admits the derivation
`[1, 0, [[0, 1, []]]]` whose probability is exactly `1/2` (its only parent
lies strictly above), and resets `min_probability` to 0 rather than keeping
it positive. -/
theorem C6_cex :
    rebuild_queue GA (1/2) 500000 125000 5 =
      some ([⟨true, 1/2, .mk 1 0 [.mk 0 1 []]⟩], 0) ∧
    find_probability GA (.mk 1 0 [.mk 0 1 []]) = 1/2 := by decide

unseal Rat.mul Rat.add Rat.sub Rat.inv in
/-- C3 counterexample: the claim says a parent emits a tying child only if
it is the lexicographically smallest tying parent.  In `G3` the child `c3`
has exactly the two parents `pLeft` and `pRight`, tying at probability
`2/25`; `pLeft` is lexicographically smaller, yet the code emits `c3` from
`pRight` (the first parent in `dd_is_my_child`'s right-to-left visit order)
and not from `pLeft`. -/
theorem C3_cex :
    find_probability G3 pLeft = find_probability G3 pRight ∧
    pLeft ∈ findMyParents c3 ∧ pRight ∈ findMyParents c3 ∧
    ptLex pLeft pRight = true ∧ pLeft ≠ pRight ∧
    c3 ∈ deadbeat_dad G3 pRight (find_probability G3 pRight) ∧
    c3 ∉ deadbeat_dad G3 pLeft (find_probability G3 pLeft) := by decide

/-- C10 counterexample: the claim says every fragment in the five lowest
distinct count tiers is skipped.  In the class `mwClass` (ascending counts
`1,2,3,4,5,5` — exactly five distinct tiers), the fragment `"f"` carries
the fifth-lowest count `5` and is nevertheless trained: only the *first*
fragment of the fifth tier is skipped. -/
theorem C10_cex :
    create_multiword_detector [(4, mwClass)] = ["f"] ∧
    (mwClass.map Prod.snd).dedup = [1, 2, 3, 4, 5] ∧
    ("f", (5 : ℚ)) ∈ mwClass := by decide

theorem skipCount_of_ge (s : Nat) (p : ℚ) (l : List (String × ℚ)) (h : ¬ s < 5) :
    skipCount s p l = 0 := by
  cases l with
  | nil => rfl
  | cons x rest =>
    obtain ⟨f, c⟩ := x
    simp [skipCount, h]

theorem mwTrainLoop_eq_drop :
    ∀ (l : List (String × ℚ)) (s : Nat) (p : ℚ),
      mwTrainLoop s p l = (l.drop (skipCount s p l)).map Prod.fst := by
  intro l
  induction l with
  | nil => intro s p; rfl
  | cons x rest ih =>
    intro s p
    obtain ⟨f, c⟩ := x
    by_cases h : s < 5
    · by_cases hc : c > p
      · simp only [mwTrainLoop, skipCount, if_pos h, if_pos hc, ih]
        rw [Nat.add_comm 1 (skipCount (s + 1) c rest)]
        simp [List.drop_succ_cons]
      · simp only [mwTrainLoop, skipCount, if_pos h, if_neg hc, ih]
        rw [Nat.add_comm 1 (skipCount s p rest)]
        simp [List.drop_succ_cons]
    · simp only [mwTrainLoop, skipCount, if_neg h, ih, skipCount_of_ge _ _ _ h]
      simp

theorem skipCount_le_length : ∀ (l : List (String × ℚ)) (s : Nat) (p : ℚ),
    skipCount s p l ≤ l.length := by
  intro l
  induction l with
  | nil => intro s p; simp [skipCount]
  | cons x rest ih =>
    intro s p
    obtain ⟨f, c⟩ := x
    by_cases h : s < 5
    · by_cases hc : c > p
      · simp only [skipCount, if_pos h, if_pos hc, List.length_cons]
        have := ih (s + 1) c
        omega
      · simp only [skipCount, if_pos h, if_neg hc, List.length_cons]
        have := ih s p
        omega
    · simp [skipCount, h]

theorem skipCount_tiers : ∀ (l : List (String × ℚ)) (s : Nat) (p : ℚ), s ≤ 5 →
    (∀ j < skipCount s p l, s + newTiers p ((l.take j).map Prod.snd) < 5) ∧
    (s + newTiers p ((l.take (skipCount s p l)).map Prod.snd) = 5 ∨
      (skipCount s p l = l.length ∧ s + newTiers p (l.map Prod.snd) < 5)) := by
  intro l
  induction l with
  | nil =>
    intro s p hs
    constructor
    · intro j hj
      simp [skipCount] at hj
    · by_cases h5 : s = 5
      · left; simp [skipCount, newTiers, h5]
      · right
        refine ⟨rfl, ?_⟩
        simp only [List.map_nil, newTiers]
        omega
  | cons x rest ih =>
    intro s p hs
    obtain ⟨f, c⟩ := x
    by_cases h : s < 5
    · by_cases hc : c > p
      · have IH := ih (s + 1) c (by omega)
        constructor
        · intro j hj
          simp only [skipCount, if_pos h, if_pos hc] at hj
          cases j with
          | zero =>
            simp only [List.take_zero, List.map_nil, newTiers]
            omega
          | succ j' =>
            have hj' : j' < skipCount (s + 1) c rest := by omega
            have h1 := IH.1 j' hj'
            simp only [List.take_succ_cons, List.map_cons, newTiers, if_pos hc]
            omega
        · simp only [skipCount, if_pos h, if_pos hc]
          rcases IH.2 with h1 | ⟨h2, h3⟩
          · left
            rw [Nat.add_comm 1 (skipCount (s + 1) c rest)]
            simp only [List.take_succ_cons, List.map_cons, newTiers, if_pos hc]
            omega
          · right
            constructor
            · simp only [h2, List.length_cons]
              omega
            · simp only [List.map_cons, newTiers, if_pos hc]
              omega
      · have IH := ih s p hs
        constructor
        · intro j hj
          simp only [skipCount, if_pos h, if_neg hc] at hj
          cases j with
          | zero =>
            simp only [List.take_zero, List.map_nil, newTiers]
            omega
          | succ j' =>
            have hj' : j' < skipCount s p rest := by omega
            have h1 := IH.1 j' hj'
            simp only [List.take_succ_cons, List.map_cons, newTiers, if_neg hc]
            omega
        · simp only [skipCount, if_pos h, if_neg hc]
          rcases IH.2 with h1 | ⟨h2, h3⟩
          · left
            rw [Nat.add_comm 1 (skipCount s p rest)]
            simp only [List.take_succ_cons, List.map_cons, newTiers, if_neg hc]
            omega
          · right
            constructor
            · simp only [h2, List.length_cons]
              omega
            · simp only [List.map_cons, newTiers, if_neg hc]
              omega
    · have h5 : s = 5 := by omega
      constructor
      · intro j hj
        simp [skipCount, h] at hj
      · left
        simp [skipCount, h, newTiers, h5]

/-- C10 amended: within each length ≥ 4 class, the training loop (scanning
in ascending count order) trains exactly the suffix after its skip phase;
the skip phase ends exactly when five distinct (strictly increasing) count
values have been seen — the first fragment of the fifth distinct tier is
the last fragment skipped, and any later fragment of that same tier *is*
trained; if fewer than five distinct tiers exist, the whole class is
skipped; and every trained fragment comes from a class of length ≥ 4. -/
theorem C10_amended :
    (∀ (s : Nat) (p : ℚ) (l : List (String × ℚ)), s ≤ 5 →
      mwTrainLoop s p l = (l.drop (skipCount s p l)).map Prod.fst ∧
      skipCount s p l ≤ l.length ∧
      (∀ j < skipCount s p l, s + newTiers p ((l.take j).map Prod.snd) < 5) ∧
      (s + newTiers p ((l.take (skipCount s p l)).map Prod.snd) = 5 ∨
        (skipCount s p l = l.length ∧ s + newTiers p (l.map Prod.snd) < 5))) ∧
    (∀ (table : List (Nat × List (String × ℚ))) (f : String),
      f ∈ create_multiword_detector table →
      ∃ kv ∈ table, 4 ≤ kv.1 ∧ f ∈ mwTrainLoop 0 0 kv.2) := by
  constructor
  · intro s p l hs
    exact ⟨mwTrainLoop_eq_drop l s p, skipCount_le_length l s p,
      (skipCount_tiers l s p hs).1, (skipCount_tiers l s p hs).2⟩
  · intro table f hf
    simp only [create_multiword_detector, List.mem_flatMap, List.mem_filter,
      decide_eq_true_eq] at hf
    obtain ⟨kv, ⟨hkv, hlen⟩, hmem⟩ := hf
    exact ⟨kv, hkv, hlen, hmem⟩

/-- Witness for C10's amended claim on the concrete class `mwClass`. -/
theorem C10_amended_witness :
    (0 : Nat) ≤ 5 ∧
    mwTrainLoop 0 0 mwClass = (mwClass.drop (skipCount 0 0 mwClass)).map Prod.fst ∧
    skipCount 0 0 mwClass = 5 :=
  ⟨by decide, (C10_amended.1 0 0 mwClass (by decide)).1, by decide⟩

/-- C6 amended: `rebuild_from_max` pushes an item into the rebuilt queue iff
its probability is *at or below* (not strictly below) the previous
`max_probability`, every parent lies strictly above `max_probability`, and
the probability clears the current `min_probability` — which
`rebuild_queue` resets to 0 before the walk, so the admission band's lower
edge is 0 (until a trim during the rebuild raises it), not the pre-rebuild
`min_probability`. -/
theorem C6_amended : ∀ (G : Grammar) (maxP minP : ℚ) (qi : QueueItem),
    (rebuild_from_max G maxP minP qi).2 = some qi ↔
      (qi.probability ≤ maxP ∧
       (∀ p ∈ findMyParents qi.parse_tree, maxP < find_probability G p) ∧
       minP ≤ qi.probability) := by
  intro G maxP minP qi
  unfold rebuild_from_max
  by_cases h1 : qi.probability ≤ maxP
  · rw [if_pos h1]
    by_cases h2 : (findMyParents qi.parse_tree).any
        (fun p => decide (find_probability G p ≤ maxP))
    · rw [if_pos h2]
      simp only [List.any_eq_true, decide_eq_true_eq] at h2
      obtain ⟨p, hp, hple⟩ := h2
      constructor
      · intro h; exact Option.noConfusion h
      · rintro ⟨-, hpar, -⟩
        exact absurd (hpar p hp) (not_lt.2 hple)
    · rw [if_neg h2]
      have hpar : ∀ p ∈ findMyParents qi.parse_tree, maxP < find_probability G p := by
        intro p hp
        by_contra hle
        exact h2 (List.any_eq_true.2 ⟨p, hp, by simpa using not_lt.1 hle⟩)
      by_cases h3 : qi.probability ≥ minP
      · rw [if_pos h3]
        constructor
        · intro _; exact ⟨h1, hpar, h3⟩
        · intro _; rfl
      · rw [if_neg h3]
        constructor
        · intro h; exact Option.noConfusion h
        · rintro ⟨-, -, hmin⟩
          exact absurd hmin h3
  · rw [if_neg h1]
    constructor
    · intro h; exact Option.noConfusion h
    · rintro ⟨hle, -⟩
      exact absurd hle h1

theorem dd_mem_parent {G : Grammar} {p c : PT} {t : ℚ}
    (h : c ∈ deadbeat_dad G p t) :
    dd_is_my_child G c t = true ∧ dd_childs_parent G c t = some p := by
  unfold deadbeat_dad at h
  have h2 := (List.mem_filter.1 h).2
  simp only [Bool.and_eq_true, beq_iff_eq] at h2
  exact ⟨h2.1, h2.2⟩

theorem dd_mem_find_children {G : Grammar} {p c : PT} {t : ℚ}
    (h : c ∈ deadbeat_dad G p t) : c ∈ find_children G p :=
  (List.mem_filter.1 h).1

/-- C3 amended: when `deadbeat_dad` emits a child `c` from parent `p` (with
threshold `t`, the parent's probability at the call sites), `p` is the
*first* candidate parent in `dd_is_my_child`'s traversal order (the node's
own decrement/collapse candidate first, then the child subtrees
right-to-left) whose probability equals `t` — the tie-break is the
enumeration order of that traversal, not a lexicographic comparison of the
parent trees (see the counterexample). -/
theorem C3_amended : ∀ (G : Grammar) (p c : PT) (t : ℚ),
    c ∈ deadbeat_dad G p t →
    (dd_cands c).find? (fun q => find_probability G q == t) = some p := by
  intro G p c t h
  exact (dd_mem_parent h).2

unseal Rat.mul Rat.add Rat.sub Rat.inv in
/-- Witness for C3's amended claim: the emission of `c3` from `pRight` in
`G3` indeed has `pRight` as the first tying candidate. -/
theorem C3_amended_witness :
    c3 ∈ deadbeat_dad G3 pRight (2/5 * (1/5) * 1) ∧
    (dd_cands c3).find? (fun q => find_probability G3 q == 2/5 * (1/5) * 1) = some pRight :=
  ⟨by decide, C3_amended G3 pRight c3 (2/5 * (1/5) * 1) (by decide)⟩

theorem getRepl_cases (G : Grammar) (g r : Nat) :
    (getNT G g ∈ G ∧ getRepl G g r ∈ (getNT G g).replacements) ∨
      getRepl G g r = dummyRepl := by
  by_cases hg : g < G.length
  · have hnt : getNT G g ∈ G := by
      unfold getNT
      rw [List.getD_eq_getElem G dummyNT hg]
      exact List.getElem_mem hg
    by_cases hr : r < (getNT G g).replacements.length
    · left
      refine ⟨hnt, ?_⟩
      unfold getRepl
      rw [List.getD_eq_getElem _ dummyRepl hr]
      exact List.getElem_mem hr
    · right
      unfold getRepl
      rw [List.getD_eq_getElem?_getD, List.getElem?_eq_none (by omega), Option.getD_none]
  · right
    have hnt : getNT G g = dummyNT := by
      unfold getNT
      rw [List.getD_eq_getElem?_getD, List.getElem?_eq_none (by omega), Option.getD_none]
    unfold getRepl
    rw [hnt]
    rfl

theorem getRepl_pos {G : Grammar} (hG : ValidGrammar G) (g r : Nat) :
    0 < (getRepl G g r).prob := by
  rcases getRepl_cases G g r with ⟨hnt, hrp⟩ | hd
  · exact (hG.1 _ hnt _ hrp).1
  · rw [hd]; norm_num [dummyRepl]

theorem getRepl_le_one {G : Grammar} (hG : ValidGrammar G) (g r : Nat) :
    (getRepl G g r).prob ≤ 1 := by
  rcases getRepl_cases G g r with ⟨hnt, hrp⟩ | hd
  · exact (hG.1 _ hnt _ hrp).2
  · rw [hd]
    norm_num [dummyRepl]

theorem getRepl_succ_le {G : Grammar} (hG : ValidGrammar G) (g r : Nat)
    (h : r + 1 < (getNT G g).replacements.length) :
    (getRepl G g (r + 1)).prob ≤ (getRepl G g r).prob := by
  have hg : g < G.length := by
    by_contra hg
    have hnt : getNT G g = dummyNT := by
      unfold getNT
      rw [List.getD_eq_getElem?_getD, List.getElem?_eq_none (by omega), Option.getD_none]
    rw [hnt] at h
    simp [dummyNT] at h
  have hnt : getNT G g ∈ G := by
    unfold getNT
    rw [List.getD_eq_getElem G dummyNT hg]
    exact List.getElem_mem hg
  have hchain := hG.2 _ hnt
  have hstep := List.pairwise_iff_get.1 hchain ⟨r, by omega⟩ ⟨r + 1, h⟩ (by simp)
  unfold getRepl
  rw [List.getD_eq_getElem _ dummyRepl (by omega : r < (getNT G g).replacements.length),
    List.getD_eq_getElem _ dummyRepl h]
  simpa using hstep

theorem find_probability_pos {G : Grammar} (hG : ValidGrammar G) :
    ∀ n : PT, 0 < find_probability G n :=
  fun n => PT.rec
    (motive_1 := fun n => 0 < find_probability G n)
    (motive_2 := fun l => 0 < find_probList G l)
    (fun g r cs ih => by
      simp only [find_probability]
      exact mul_pos (getRepl_pos hG g r) ih)
    (by simp [find_probList])
    (fun x xs ihx ihxs => by
      simp only [find_probList]
      exact mul_pos ihx ihxs)
    n

theorem find_probList_pos {G : Grammar} (hG : ValidGrammar G) :
    ∀ l : List PT, 0 < find_probList G l := by
  intro l
  induction l with
  | nil => simp [find_probList]
  | cons x xs ih =>
    simp only [find_probList]
    exact mul_pos (find_probability_pos hG x) ih

theorem find_probability_le_one {G : Grammar} (hG : ValidGrammar G) :
    ∀ n : PT, find_probability G n ≤ 1 :=
  fun n => PT.rec
    (motive_1 := fun n => find_probability G n ≤ 1)
    (motive_2 := fun l => find_probList G l ≤ 1)
    (fun g r cs ih => by
      simp only [find_probability]
      exact mul_le_one₀ (getRepl_le_one hG g r)
        (le_of_lt (find_probList_pos hG cs)) ih)
    (by simp [find_probList])
    (fun x xs ihx ihxs => by
      simp only [find_probList]
      exact mul_le_one₀ ihx (le_of_lt (find_probList_pos hG xs)) ihxs)
    n

theorem find_probList_le_one {G : Grammar} (hG : ValidGrammar G) :
    ∀ l : List PT, find_probList G l ≤ 1 := by
  intro l
  induction l with
  | nil => simp [find_probList]
  | cons x xs ih =>
    simp only [find_probList]
    exact mul_le_one₀ (find_probability_le_one hG x)
      (le_of_lt (find_probList_pos hG xs)) ih

theorem find_probList_append (G : Grammar) :
    ∀ l1 l2 : List PT, find_probList G (l1 ++ l2) = find_probList G l1 * find_probList G l2 := by
  intro l1 l2
  induction l1 with
  | nil => simp [find_probList]
  | cons x xs ih =>
    show find_probability G x * find_probList G (xs ++ l2) = _
    rw [ih, find_probList]
    ring

theorem find_children_prob_le {G : Grammar} (hG : ValidGrammar G) :
    ∀ n : PT, ∀ c ∈ find_children G n, find_probability G c ≤ find_probability G n :=
  fun n => PT.rec
    (motive_1 := fun n => ∀ c ∈ find_children G n,
      find_probability G c ≤ find_probability G n)
    (motive_2 := fun l => ∀ (g r : Nat) (pre : List PT) (c : PT),
      c ∈ find_children_kids G g r pre l →
      find_probability G c ≤ find_probability G (PT.mk g r (pre ++ l)))
    (fun g r cs ih => by
      cases cs with
      | nil =>
        intro c hc
        simp only [find_children] at hc
        rcases List.mem_append.1 hc with h | h
        · by_cases hguard : (getNT G g).replacements.length > r + 1
          · rw [if_pos hguard] at h
            simp only [List.mem_singleton] at h
            subst h
            simp only [find_probability, find_probList, mul_one]
            exact getRepl_succ_le hG g r (by omega)
          · rw [if_neg hguard] at h
            cases h
        · by_cases hguard : (getRepl G g 0).is_terminal = false
          · rw [if_pos hguard] at h
            simp only [List.mem_singleton] at h
            subst h
            simp only [find_probability, find_probList, mul_one]
            have h1 : find_probList G ((getRepl G g r).pos.map (fun x => PT.mk x 0 [])) ≤ 1 :=
              find_probList_le_one hG _
            have h2 : 0 < (getRepl G g r).prob := getRepl_pos hG g r
            calc (getRepl G g r).prob * find_probList G ((getRepl G g r).pos.map
                  (fun x => PT.mk x 0 []))
                ≤ (getRepl G g r).prob * 1 := mul_le_mul_of_nonneg_left h1 h2.le
              _ = (getRepl G g r).prob := mul_one _
          · rw [if_neg hguard] at h
            cases h
      | cons c0 cs' =>
        intro c hc
        simp only [find_children] at hc
        have h := ih g r [] c hc
        simpa using h)
    (fun g r pre c hc => by cases hc)
    (fun x xs ihx ihxs => by
      intro g r pre c hc
      simp only [find_children_kids] at hc
      rcases List.mem_append.1 hc with h | h
      · obtain ⟨y, hy, rfl⟩ := List.mem_map.1 h
        have hyx := ihx y hy
        simp only [find_probability]
        rw [find_probList_append, find_probList_append]
        simp only [find_probList]
        have h2 : 0 < (getRepl G g r).prob := getRepl_pos hG g r
        have h3 : 0 < find_probList G pre := find_probList_pos hG pre
        have h4 : 0 < find_probList G xs := find_probList_pos hG xs
        have i1 : find_probability G y * find_probList G xs ≤
            find_probability G x * find_probList G xs :=
          mul_le_mul_of_nonneg_right hyx h4.le
        have i2 : find_probList G pre * (find_probability G y * find_probList G xs) ≤
            find_probList G pre * (find_probability G x * find_probList G xs) :=
          mul_le_mul_of_nonneg_left i1 h3.le
        exact mul_le_mul_of_nonneg_left i2 h2.le
      · have h5 := ihxs g r (pre ++ [x]) c h
        rw [List.append_assoc] at h5
        simpa using h5)
    n

theorem dd_unique {G : Grammar} {p1 p2 c : PT}
    (h1 : c ∈ deadbeat_dad G p1 (find_probability G p1))
    (h2 : c ∈ deadbeat_dad G p2 (find_probability G p2)) : p1 = p2 := by
  obtain ⟨hb1, hcp1⟩ := dd_mem_parent h1
  obtain ⟨hb2, hcp2⟩ := dd_mem_parent h2
  have hm1 : p1 ∈ dd_cands c := List.mem_of_find?_eq_some hcp1
  have hm2 : p2 ∈ dd_cands c := List.mem_of_find?_eq_some hcp2
  unfold dd_is_my_child at hb1 hb2
  have hq1 : ¬ find_probability G p1 < find_probability G p2 := by
    have h := List.all_eq_true.1 hb2 p1 hm1
    simpa using h
  have hq2 : ¬ find_probability G p2 < find_probability G p1 := by
    have h := List.all_eq_true.1 hb1 p2 hm2
    simpa using h
  have heq : find_probability G p1 = find_probability G p2 :=
    le_antisymm (not_lt.1 hq2) (not_lt.1 hq1)
  rw [heq] at hcp1
  have h := hcp1.symm.trans hcp2
  injection h

/-- C2 amended: of the claim's three parts, two hold — every child
`deadbeat_dad` returns for a parent `p` is a well-formed raw child of `p`
(a `find_children` successor) with probability at most `P(p)` (under the §3
invariants), and no derivation is returned by two distinct parents.  The
completeness part is false: a reachable derivation can be omitted by every
parent, because `dd_is_my_child` also enumerates spurious "collapse"
candidates (a node whose direct children all have `r = 0` but still carry
grandchildren is collapsed even though the collapsed tree is not a parent),
and a spurious candidate can win the equal-probability tie (see the
counterexample). -/
theorem C2_amended :
    (∀ (G : Grammar) (p c : PT), ValidGrammar G →
      c ∈ deadbeat_dad G p (find_probability G p) →
      c ∈ find_children G p ∧
        find_probability G c ≤ find_probability G p) ∧
    (∀ (G : Grammar) (p1 p2 c : PT),
      c ∈ deadbeat_dad G p1 (find_probability G p1) →
      c ∈ deadbeat_dad G p2 (find_probability G p2) → p1 = p2) := by
  constructor
  · intro G p c hG h
    have hc := dd_mem_find_children h
    exact ⟨hc, find_children_prob_le hG p c hc⟩
  · intro G p1 p2 c h1 h2
    exact dd_unique h1 h2

unseal Rat.mul Rat.add Rat.sub Rat.inv in
/-- Witness for C2's amended claim on the probability-1 grammar `G2c`. -/
theorem C2_amended_witness :
    ValidGrammar G2c ∧
    treeB ∈ deadbeat_dad G2c rootT (find_probability G2c rootT) ∧
    treeB ∈ find_children G2c rootT ∧
    find_probability G2c treeB ≤ find_probability G2c rootT :=
  ⟨by decide, by decide,
   (C2_amended.1 G2c rootT treeB (by decide) (by decide)).1,
   (C2_amended.1 G2c rootT treeB (by decide) (by decide)).2⟩

unseal Rat.mul Rat.add Rat.sub Rat.inv in
/-- C2 counterexample: in the §3-valid grammar `G2c` (a probability-1 chain
`START → A → B`), the derivation `cBad = [0,0,[[1,0,[[2,0,[]]]]]]` is
reachable from the START node through raw successors, yet *no* tree at all
(reachable or not, at its own probability as threshold) emits it under the
deadbeat-dad rule: its only candidates are the collapsed root (a spurious
parent that is not a parent at all) and its true parent, the tie goes to
the spurious candidate, and the true parent therefore abandons it.  The
union of `deadbeat_dad` over all reachable nodes misses `cBad`. -/
theorem C2_cex :
    Relation.ReflTransGen (fun a b => b ∈ find_children G2c a) rootT cBad ∧
    ¬ ∃ n, cBad ∈ deadbeat_dad G2c n (find_probability G2c n) := by
  constructor
  · have s1 : treeB ∈ find_children G2c rootT := by decide
    have s2 : cBad ∈ find_children G2c treeB := by decide
    exact Relation.ReflTransGen.tail
      (Relation.ReflTransGen.tail Relation.ReflTransGen.refl s1) s2
  · rintro ⟨n, hn⟩
    have hcp := (dd_mem_parent hn).2
    have hmem : n ∈ dd_cands cBad := List.mem_of_find?_eq_some hcp
    have hc : dd_cands cBad = [rootT, treeB] := by decide
    rw [hc] at hmem
    simp only [List.mem_cons, List.not_mem_nil, or_false] at hmem
    rcases hmem with rfl | rfl
    · exact absurd hn (by decide)
    · exact absurd hn (by decide)

theorem popMaxQ_spec : ∀ (q : List QueueItem) (m : QueueItem) (rest : List QueueItem),
    popMaxQ q = some (m, rest) →
    m ∈ q ∧ (∀ x ∈ rest, x ∈ q) ∧ (∀ x ∈ q, x.probability ≤ m.probability) := by
  intro q
  induction q with
  | nil => intro m rest h; simp [popMaxQ] at h
  | cons x xs ih =>
    intro m rest h
    simp only [popMaxQ] at h
    cases hx : popMaxQ xs with
    | none =>
      rw [hx] at h
      have hnil := (popMaxQ_eq_none xs).1 hx
      subst hnil
      injection h with h1
      injection h1 with h2 h3
      subst h2; subst h3
      refine ⟨List.mem_cons_self _ _, ?_, ?_⟩
      · intro y hy; cases hy
      · intro y hy
        rcases List.mem_cons.1 hy with rfl | hy2
        · exact le_refl _
        · cases hy2
    | some p =>
      obtain ⟨m1, r1⟩ := p
      rw [hx] at h
      dsimp only at h
      obtain ⟨hm1, hsub1, hle1⟩ := ih m1 r1 hx
      by_cases hc : x.probability ≥ m1.probability
      · rw [if_pos hc] at h
        injection h with h1
        injection h1 with h2 h3
        subst h2; subst h3
        refine ⟨List.mem_cons_self _ _, fun y hy => List.mem_cons_of_mem _ hy, ?_⟩
        intro y hy
        rcases List.mem_cons.1 hy with rfl | hy2
        · exact le_refl _
        · exact le_trans (hle1 y hy2) hc
      · rw [if_neg hc] at h
        injection h with h1
        injection h1 with h2 h3
        subst h2; subst h3
        refine ⟨List.mem_cons_of_mem _ hm1, ?_, ?_⟩
        · intro y hy
          rcases List.mem_cons.1 hy with rfl | hy2
          · exact List.mem_cons_self _ _
          · exact List.mem_cons_of_mem _ (hsub1 y hy2)
        · intro y hy
          rcases List.mem_cons.1 hy with rfl | hy2
          · exact le_of_lt (lt_of_not_ge hc)
          · exact hle1 y hy2

theorem popK_subset : ∀ (k : Nat) (q keep rem : List QueueItem),
    popK k q = some (keep, rem) →
    (∀ x ∈ keep, x ∈ q) ∧ (∀ x ∈ rem, x ∈ q) := by
  intro k
  induction k with
  | zero =>
    intro q keep rem h
    simp only [popK] at h
    injection h with h1
    injection h1 with h2 h3
    subst h2; subst h3
    refine ⟨?_, fun y hy => hy⟩
    intro y hy; cases hy
  | succ k ih =>
    intro q keep rem h
    simp only [popK] at h
    cases hpm : popMaxQ q with
    | none => rw [hpm] at h; cases h
    | some p =>
      obtain ⟨m, rest⟩ := p
      rw [hpm] at h
      dsimp only at h
      cases hpk : popK k rest with
      | none => rw [hpk] at h; cases h
      | some p2 =>
        obtain ⟨keep2, rem2⟩ := p2
        rw [hpk] at h
        dsimp only at h
        injection h with h1
        injection h1 with h2 h3
        subst h2; subst h3
        obtain ⟨hm, hsub, -⟩ := popMaxQ_spec _ _ _ hpm
        obtain ⟨hk2, hr2⟩ := ih rest keep2 rem2 hpk
        refine ⟨?_, fun y hy => hsub y (hr2 y hy)⟩
        intro y hy
        rcases List.mem_cons.1 hy with rfl | hy2
        · exact hm
        · exact hsub y (hk2 y hy2)

theorem popTiesF_subset : ∀ (fuel : Nat) (b : ℚ) (q ties : List QueueItem),
    popTiesF b fuel q = some ties → ∀ x ∈ ties, x ∈ q := by
  intro fuel
  induction fuel with
  | zero =>
    intro b q ties h
    rw [popTiesF] at h
    cases hpm : popMaxQ q with
    | none => rw [hpm] at h; cases h
    | some p =>
      obtain ⟨m, rest⟩ := p
      rw [hpm] at h
      dsimp only at h
      by_cases hb : m.probability = b
      · rw [if_pos hb] at h; cases h
      · rw [if_neg hb] at h
        injection h with h1
        subst h1
        intro y hy; cases hy
  | succ fuel ih =>
    intro b q ties h
    rw [popTiesF] at h
    cases hpm : popMaxQ q with
    | none => rw [hpm] at h; cases h
    | some p =>
      obtain ⟨m, rest⟩ := p
      rw [hpm] at h
      dsimp only at h
      obtain ⟨hm, hsub, -⟩ := popMaxQ_spec _ _ _ hpm
      by_cases hb : m.probability = b
      · rw [if_pos hb] at h
        cases hpt : popTiesF b fuel rest with
        | none => rw [hpt] at h; cases h
        | some ties2 =>
          rw [hpt] at h
          injection h with h1
          subst h1
          intro y hy
          rcases List.mem_cons.1 hy with rfl | hy2
          · exact hm
          · exact hsub y (ih b rest ties2 hpt y hy2)
      · rw [if_neg hb] at h
        injection h with h1
        subst h1
        intro y hy; cases hy

theorem trim_queue_subset (s : QState) (q2 : List QueueItem) (b : ℚ) (fl : Bool)
    (h : trim_queue s = some (q2, b, fl)) : ∀ x ∈ q2, x ∈ s.p_queue := by
  unfold trim_queue at h
  by_cases hk : s.max_queue_size - s.reduction_size = 0
  · rw [if_pos hk] at h
    injection h with h1
    injection h1 with h2 h3
    subst h2
    intro y hy; cases hy
  · rw [if_neg hk] at h
    cases hpk : popK (s.max_queue_size - s.reduction_size) s.p_queue with
    | none => rw [hpk] at h; cases h
    | some p =>
      obtain ⟨keep, rest⟩ := p
      rw [hpk] at h
      dsimp only at h
      cases hgl : keep.getLast? with
      | none => rw [hgl] at h; cases h
      | some last =>
        rw [hgl] at h
        dsimp only at h
        cases hpt : popTies last.probability rest with
        | none => rw [hpt] at h; cases h
        | some ties =>
          rw [hpt] at h
          dsimp only at h
          injection h with h1
          injection h1 with h2 h3
          subst h2
          obtain ⟨hkeep, hrest⟩ := popK_subset _ _ _ _ hpk
          intro y hy
          rcases List.mem_append.1 hy with hy2 | hy2
          · exact hkeep y hy2
          · exact hrest y (popTiesF_subset _ _ _ _ hpt y hy2)

theorem pushChildren_mem (G : Grammar) (qp minP : ℚ) :
    ∀ (kids : List PT) (acc : List QueueItem) (x : QueueItem),
      x ∈ pushChildren G qp minP kids acc →
      x ∈ acc ∨ x.probability ≤ qp := by
  intro kids
  induction kids with
  | nil => intro acc x h; exact Or.inl h
  | cons c cs ih =>
    intro acc x h
    unfold pushChildren at h ih
    simp only [List.foldl_cons] at h
    rcases ih _ x h with h2 | h2
    · dsimp only at h2
      by_cases hle : find_probability G c ≤ qp
      · rw [if_pos hle] at h2
        by_cases hmin : find_probability G c ≥ minP
        · rw [if_pos hmin] at h2
          rcases List.mem_append.1 h2 with h3 | h3
          · exact Or.inl h3
          · simp only [List.mem_singleton] at h3
            subst h3
            exact Or.inr hle
        · rw [if_neg hmin] at h2
          exact Or.inl h2
      · rw [if_neg hle] at h2
        exact Or.inl h2
    · exact Or.inr h2

theorem popStep_spec {G : Grammar} {s : QState} {qi : QueueItem} {s1 : QState}
    (hInv : ∀ x ∈ s.p_queue, x.probability ≤ s.max_probability)
    (h : popStep G s = some (qi, s1)) :
    qi.probability ≤ s.max_probability ∧
    s1.max_probability = qi.probability ∧
    (∀ x ∈ s1.p_queue, x.probability ≤ s1.max_probability) := by
  unfold popStep at h
  cases hpm : popMaxQ s.p_queue with
  | none => rw [hpm] at h; cases h
  | some p =>
    obtain ⟨m, rest⟩ := p
    rw [hpm] at h
    dsimp only at h
    obtain ⟨hmem, hsub, hmax⟩ := popMaxQ_spec _ _ _ hpm
    have hpush : ∀ x ∈ pushChildren G m.probability s.min_probability
        (deadbeat_dad G m.parse_tree m.probability) rest,
        x.probability ≤ m.probability := by
      intro x hx
      rcases pushChildren_mem G m.probability s.min_probability _ _ x hx with h2 | h2
      · exact hmax x (hsub x h2)
      · exact h2
    by_cases hlen : (pushChildren G m.probability s.min_probability
        (deadbeat_dad G m.parse_tree m.probability) rest).length > s.max_queue_size
    · rw [if_pos hlen] at h
      cases htr : trim_queue ⟨pushChildren G m.probability s.min_probability
          (deadbeat_dad G m.parse_tree m.probability) rest, m.probability,
          s.min_probability, s.max_queue_size, s.reduction_size⟩ with
      | none => rw [htr] at h; cases h
      | some p2 =>
        obtain ⟨q2, minP2, fl2⟩ := p2
        rw [htr] at h
        dsimp only at h
        injection h with h1
        injection h1 with h2 h3
        subst h2; subst h3
        refine ⟨hInv m hmem, rfl, ?_⟩
        intro x hx
        exact hpush x (trim_queue_subset _ _ _ _ htr x hx)
    · rw [if_neg hlen] at h
      injection h with h1
      injection h1 with h2 h3
      subst h2; subst h3
      exact ⟨hInv m hmem, rfl, hpush⟩

/-- C1: over any run of `next_function`'s pop loop (here `runPops`, the
iterated loop body) from a state whose queue items all lie at or below
`max_probability` — which holds at `initialize` for every grammar with
probabilities in (0, 1], second conjunct — the sequence of popped
probabilities, prefixed by the starting `max_probability`, is non-increasing,
and the final `max_probability` never exceeds the starting one.  Every
emitted guess is a popped terminal item, so emitted probabilities are
non-increasing as well; the invariant is preserved even across trims, since
a trim only retains existing items. -/
theorem C1_monotone :
    (∀ (G : Grammar) (s : QState) (n : Nat),
      (∀ x ∈ s.p_queue, x.probability ≤ s.max_probability) →
      List.Chain' (fun a b => b ≤ a)
        (s.max_probability :: ((runPops G n s).1.map QueueItem.probability)) ∧
      (runPops G n s).2.max_probability ≤ s.max_probability) ∧
    (∀ (G : Grammar) (s : QState), ValidGrammar G → initQueue G = some s →
      ∀ x ∈ s.p_queue, x.probability ≤ s.max_probability) := by
  constructor
  · intro G s n
    induction n generalizing s with
    | zero =>
      intro hInv
      exact ⟨List.chain'_singleton _, le_refl _⟩
    | succ n ih =>
      intro hInv
      simp only [runPops]
      cases hps : popStep G s with
      | none => exact ⟨List.chain'_singleton _, le_refl _⟩
      | some p =>
        obtain ⟨qi, s1⟩ := p
        obtain ⟨hle, hmax1, hInv1⟩ := popStep_spec hInv hps
        obtain ⟨ihc, ihm⟩ := ih s1 hInv1
        rw [hmax1] at ihc ihm
        dsimp only
        constructor
        · simp only [List.map_cons]
          exact List.chain'_cons.2 ⟨hle, ihc⟩
        · exact le_trans ihm hle
  · intro G s hG hinit
    unfold initQueue at hinit
    by_cases hidx : start_index G = -1
    · rw [if_pos hidx] at hinit; cases hinit
    · rw [if_neg hidx] at hinit
      injection hinit with h1
      subst h1
      intro x hx
      simp only [List.mem_singleton] at hx
      subst hx
      exact find_probability_le_one hG _

unseal Rat.mul Rat.add Rat.sub Rat.inv in
/-- Witness for C1 on the grammar `Gw`: a three-pop run from the
initialized state has popped probabilities `[1, 1/2, 1/2]`, a
non-increasing sequence below the initial `max_probability = 1`. -/
theorem C1_monotone_witness :
    (∀ x ∈ s0w.p_queue, x.probability ≤ s0w.max_probability) ∧
    (runPops Gw 3 s0w).1.map QueueItem.probability = [1, 1/2, 1/2] ∧
    List.Chain' (fun a b => b ≤ a)
      (s0w.max_probability :: ((runPops Gw 3 s0w).1.map QueueItem.probability)) :=
  ⟨by decide, by decide, (C1_monotone.1 Gw s0w 3 (by decide)).1⟩


theorem ddmcNode_frame (G : Grammar) (thr : ℚ) :
    ∀ n : PT, ∀ (emb : PT → PT) (t : PT) (cp : Option PT), emb n = t →
      (ddmcNode G thr n emb t cp).2.2 = t :=
  fun n => PT.rec
    (motive_1 := fun n => ∀ (emb : PT → PT) (t : PT) (cp : Option PT), emb n = t →
      (ddmcNode G thr n emb t cp).2.2 = t)
    (motive_2 := fun l => ∀ (g r : Nat) (pre : List PT) (emb : PT → PT) (t : PT)
      (cp : Option PT), emb (PT.mk g r (pre ++ l)) = t →
      (ddmcKids G thr g r emb pre l t cp).2.2 = t)
    (fun g r cs ih => by
      cases cs with
      | nil =>
        intro emb t cp hemb
        by_cases hr : r ≠ 0
        · have hru : r - 1 + 1 = r := by omega
          simp only [ddmcNode, if_pos hr, hru]
          split <;> exact hemb
        · simp only [ddmcNode, if_neg hr]
      | cons c cs' =>
        intro emb t cp hemb
        simp only [ddmcNode]
        have key : ∀ fst : Bool × Option PT × PT, fst.2.2 = t →
            (if fst.1 then
              ddmcKids G thr g r emb [] (c :: cs') fst.2.2 fst.2.1
            else fst).2.2 = t := by
          intro fst hf
          split
          · exact (ih g r [] emb fst.2.2 fst.2.1
              (by rw [List.nil_append, hemb]; exact hf.symm)).trans hf
          · exact hf
        apply key
        split
        · split <;> exact hemb
        · rfl)
    (fun g r pre emb t cp hemb => by simp only [ddmcKids])
    (fun x xs ihx ihxs => by
      intro g r pre emb t cp hemb
      simp only [ddmcKids]
      have hlater : (ddmcKids G thr g r emb (pre ++ [x]) xs t cp).2.2 = t := by
        apply ihxs
        rw [List.append_assoc]
        simpa using hemb
      split
      · rw [hlater]
        exact ihx _ t _ hemb
      · exact hlater)
    n

theorem fcdd_inc_frame (G : Grammar) (thr : ℚ) (g r : Nat) (emb : PT → PT)
    (t : PT) (acc : List PT) (p : List PT × PT)
    (hemb : emb (PT.mk g r []) = t)
    (h : fcdd_inc G thr g r emb t acc = some p) : p.2 = t := by
  unfold fcdd_inc at h
  split at h
  · dsimp only at h
    split at h
    · split at h
      · cases h
      · split at h
        · injection h with h1
          subst h1
          exact hemb
        · injection h with h1
          subst h1
          exact hemb
    · injection h with h1
      subst h1
      exact hemb
  · injection h with h1
    subst h1
    rfl

theorem fcdd_exp_frame (G : Grammar) (thr : ℚ) (g r : Nat) (emb : PT → PT)
    (t t4 : PT) (acc1 : List PT) (res : List PT × PT)
    (hemb : emb (PT.mk g r []) = t) (ht4 : t4 = t)
    (h : fcdd_exp G thr g r emb t4 acc1 = some res) : res.2 = t := by
  unfold fcdd_exp at h
  split at h
  · dsimp only at h
    split at h
    · split at h
      · cases h
      · split at h
        · injection h with h1
          subst h1
          exact hemb
        · injection h with h1
          subst h1
          exact hemb
    · injection h with h1
      subst h1
      exact hemb
  · injection h with h1
    subst h1
    exact ht4

theorem fcdd_frame (G : Grammar) (thr : ℚ) :
    ∀ n : PT, ∀ (emb : PT → PT) (t : PT) (acc : List PT) (res : List PT × PT),
      emb n = t → fcdd_st G thr n emb t acc = some res → res.2 = t :=
  fun n => PT.rec
    (motive_1 := fun n => ∀ (emb : PT → PT) (t : PT) (acc : List PT)
      (res : List PT × PT), emb n = t →
      fcdd_st G thr n emb t acc = some res → res.2 = t)
    (motive_2 := fun l => ∀ (g r : Nat) (pre : List PT) (emb : PT → PT) (t : PT)
      (acc : List PT) (res : List PT × PT), emb (PT.mk g r (pre ++ l)) = t →
      fcdd_kids G thr g r emb pre l t acc = some res → res.2 = t)
    (fun g r cs ih => by
      cases cs with
      | nil =>
        intro emb t acc res hemb h
        simp only [fcdd_st] at h
        cases hinc : fcdd_inc G thr g r emb t acc with
        | none => rw [hinc] at h; cases h
        | some p =>
          rw [hinc] at h
          dsimp only at h
          exact fcdd_exp_frame G thr g r emb t p.2 p.1 res hemb
            (fcdd_inc_frame G thr g r emb t acc p hemb hinc) h
      | cons c cs' =>
        intro emb t acc res hemb h
        simp only [fcdd_st] at h
        exact ih g r [] emb t acc res (by rw [List.nil_append]; exact hemb) h)
    (fun g r pre emb t acc res hemb h => by
      simp only [fcdd_kids] at h
      injection h with h1
      subst h1
      rfl)
    (fun x xs ihx ihxs => by
      intro g r pre emb t acc res hemb h
      simp only [fcdd_kids] at h
      cases hst : fcdd_st G thr x (fun y => emb (PT.mk g r (pre ++ y :: xs))) t acc with
      | none => rw [hst] at h; cases h
      | some p =>
        rw [hst] at h
        dsimp only at h
        have hp := ihx _ t acc p hemb hst
        rw [hp] at h
        exact ihxs g r (pre ++ [x]) emb t p.1 res
          (by rw [List.append_assoc]; simpa using hemb) h)
    n

/-- C4: the deadbeat-dad successor enumeration leaves the parent tree
bitwise unchanged.  First conjunct: `dd_is_my_child`'s stack loop returns
the child tree it was given (every speculative decrement/collapse is undone
exactly).  Second conjunct: whenever `deadbeat_dad` returns (it raises only
on an impossible `childs_parent[0]` lookup, modelled as `none`), the parent
tree after the call equals the tree before it — every `cur_node[1] += 1` /
`cur_node[2] = new_expansion` probe made while collecting children is
undone. -/
theorem C4_frame :
    (∀ (G : Grammar) (thr : ℚ) (c : PT), (ddmc G thr c).2.2 = c) ∧
    (∀ (G : Grammar) (pt : PT) (pp : ℚ) (res : List PT × PT),
      deadbeat_dad_st G pt pp = some res → res.2 = pt) := by
  constructor
  · intro G thr c
    exact ddmcNode_frame G thr c id c none rfl
  · intro G pt pp res h
    exact fcdd_frame G pp pt id pt [] res rfl h

unseal Rat.mul Rat.add Rat.sub Rat.inv in
/-- Witness for C4 at the concrete grammar `G2c`: running the
state-threaded `deadbeat_dad` on the expanded START tree returns with the
tree intact. -/
theorem C4_frame_witness :
    deadbeat_dad_st G2c treeB 1 = some (([] : List PT), treeB) ∧
    (ddmc G2c 1 cBad).2.2 = cBad ∧
    ((([] : List PT), treeB) : List PT × PT).2 = treeB :=
  ⟨by decide, C4_frame.1 G2c 1 cBad,
    C4_frame.2 G2c treeB 1 (([] : List PT), treeB) (by decide)⟩

unseal Rat.mul Rat.add Rat.sub Rat.inv in
/-- Witness for C6's amended claim: the boundary node of the `GA` rebuild is
admitted because its probability equals `max_probability` and its only
parent lies strictly above. -/
theorem C6_amended_witness :
    (rebuild_from_max GA (1/2) 0 ⟨true, 1/2, .mk 1 0 [.mk 0 1 []]⟩).2 =
      some ⟨true, 1/2, .mk 1 0 [.mk 0 1 []]⟩ :=
  (C6_amended GA (1/2) 0 ⟨true, 1/2, .mk 1 0 [.mk 0 1 []]⟩).2
    ⟨by decide, by decide, by decide⟩

unseal Rat.mul Rat.add Rat.sub Rat.inv in
/-- Sanity check: on the concrete grammars used above, the state-threaded
`find_children_dd` model and the pure filter model of `deadbeat_dad` return
the same children. -/
theorem dd_st_agrees_pure :
    (deadbeat_dad_st G2c rootT 1).map Prod.fst = some (deadbeat_dad G2c rootT 1) ∧
    (deadbeat_dad_st G2c treeB 1).map Prod.fst = some (deadbeat_dad G2c treeB 1) ∧
    (deadbeat_dad_st G3 pRight (2/25)).map Prod.fst =
      some (deadbeat_dad G3 pRight (2/25)) ∧
    (deadbeat_dad_st G3 pLeft (2/25)).map Prod.fst =
      some (deadbeat_dad G3 pLeft (2/25)) ∧
    (deadbeat_dad_st GA (.mk 1 0 [.mk 0 0 []]) (9/10)).map Prod.fst =
      some (deadbeat_dad GA (.mk 1 0 [.mk 0 0 []]) (9/10)) := by
  decide

unseal Rat.mul Rat.add Rat.sub Rat.inv in
/-- Sanity check: the stack-order candidate enumeration and the verdict of
`dd_is_my_child` agree between the pure and the state-threaded models on
the concrete trees used above. -/
theorem ddmc_agrees_pure :
    (ddmc G2c 1 cBad).1 = dd_is_my_child G2c cBad 1 ∧
    (ddmc G2c 1 cBad).2.1 = dd_childs_parent G2c cBad 1 ∧
    (ddmc G3 (2/25) c3).1 = dd_is_my_child G3 c3 (2/25) ∧
    (ddmc G3 (2/25) c3).2.1 = dd_childs_parent G3 c3 (2/25) := by
  decide
